import Mathlib

/-!
Verification of the mermaid-video diagram-to-layout pipeline.

This file gives a shallow embedding, in Lean 4, of the parsing and layout
code of the MermaidAnimated component (dialect detection, the pie chart
parser, the sequence diagram parser, the state diagram parser, the mindmap
parser, the flowchart topological sort, and the animation sequencer), and
proves properties of the embedded definitions.

Modelling conventions, used throughout:

* JavaScript strings are Lean Strings; the per-character work of the
  regular expressions used by the source is carried out on List Char
  (String.data), with structural-recursive scanners that implement the
  exact leftmost-match semantics of the specific patterns appearing in the
  source.  Each scanner is documented with the pattern it implements.
* JavaScript numbers produced by this code are modelled as exact rationals
  (ℚ).  Every arithmetic operation the modelled code performs on them is
  addition, subtraction, multiplication or division of values derived from
  small integers, so the rational semantics is the intended idealised
  semantics of the float code (the spec speaks of equalities "within
  floating tolerance"; in the rational model they are exact).
* Angles are measured in units of π: the stored rational a stands for the
  angle a·π radians.  All angles computed by the source are rational
  multiples of π (e.g. Math.PI / 2 is 1/2 in this representation), so this
  is lossless.
* The one place where a non-finite float can arise (the pie chart's
  division by a zero total) is modelled by Option ℚ: none stands for NaN.
  In the modelled code the only division is value / total with
  0 ≤ value ≤ total, so a division by zero is always 0/0 = NaN (never
  ±Infinity), and NaN propagates through + and *, exactly as the
  jsAdd / jsMul / jsDiv operations below do.
* A JavaScript Map with string keys is modelled either as a total function
  (when only get/set at existing keys is used) or as an insertion-ordered
  association list (when iteration order matters); a Set is modelled as an
  insertion-ordered duplicate-free list.
-/

namespace MermaidVideo

/-! ## JavaScript character classes and number model -/

/-- JS regex character class \s (the whitespace characters that occur in
diagram text). -/
def jsWs (c : Char) : Bool :=
  c = ' ' || c = '\t' || c = '\n' || c = '\r' || c = '\x0b' || c = '\x0c'

/-- JS regex character class \w = [A-Za-z0-9_]. -/
def wordChar (c : Char) : Bool :=
  c.isAlpha || c.isDigit || c = '_'

/-- JS regex '.' (without the s flag): any character except a line
terminator. -/
def notNL (c : Char) : Bool :=
  c ≠ '\n' && c ≠ '\r'

/-- Case-insensitive character comparison, for patterns with the /i flag. -/
def lcEq (c d : Char) : Bool := c.toLower = d.toLower

/-- Match a literal pattern case-insensitively at the head of the input,
returning the rest of the input on success. -/
def matchCI : List Char → List Char → Option (List Char)
  | [], cs => some cs
  | _ :: _, [] => none
  | p :: ps, c :: cs => if lcEq p c then matchCI ps cs else none

/-- Leftmost-match search: try the single-position matcher at every
position of the input, left to right, and return the first success.  This
is the search behaviour of String.prototype.match with an unanchored
regex. -/
def scanFirst {α : Type} (f : List Char → Option α) : List Char → Option α
  | [] => f []
  | c :: cs =>
    match f (c :: cs) with
    | some r => some r
    | none => scanFirst f cs

/-- Split a string into lines, exactly like String.prototype.split("\n"):
every '\n' separates two (possibly empty) chunks. -/
def splitLinesAux (cur : List Char) : List Char → List (List Char)
  | [] => [cur.reverse]
  | c :: cs =>
    if c = '\n' then cur.reverse :: splitLinesAux [] cs
    else splitLinesAux (c :: cur) cs

/-- The lines of a diagram text, as character lists. -/
def diagramLines (d : String) : List (List Char) := splitLinesAux [] d.data

/-- JS String.prototype.trim on a character list. -/
def jsTrim (cs : List Char) : List Char :=
  ((cs.dropWhile jsWs).reverse.dropWhile jsWs).reverse

/-- Digits to a natural number; parseFloat applied to the \d+ capture of a
JS regex yields exactly this value. -/
def digitsToNat (ds : List Char) : ℕ :=
  ds.foldl (fun n c => n * 10 + (c.toNat - '0'.toNat)) 0

/-- JS number addition with NaN: none is NaN and propagates. -/
def jsAdd : Option ℚ → Option ℚ → Option ℚ
  | some a, some b => some (a + b)
  | _, _ => none

/-- JS number multiplication with NaN, for the multiplications performed
by this code (never NaN·∞, since no infinity is ever produced): none is
NaN and propagates. -/
def jsMul : Option ℚ → Option ℚ → Option ℚ
  | some a, some b => some (a * b)
  | _, _ => none

/-- JS number division as performed by this code.  The only division the
modelled code executes is value / total where value is a summand of
total, so total = 0 forces value = 0 and the result is 0/0 = NaN
(modelled as none); a nonzero denominator gives the exact rational. -/
def jsDiv : Option ℚ → Option ℚ → Option ℚ
  | some a, some b => if b = 0 then none else some (a / b)
  | _, _ => none

/-! ## Dialect classifier (detectDiagramType) -/

inductive Dialect where
  | flowchart | sequence | pie | state | mindmap | unknown
deriving DecidableEq, Repr

/-- Embedding of detectDiagramType: trim and lowercase the text, then test
a fixed list of leading keywords. -/
def detectDiagramType (d : String) : Dialect :=
  let t := (jsTrim d.data).map Char.toLower
  if "flowchart".data.isPrefixOf t ∨ "graph".data.isPrefixOf t then .flowchart
  else if "sequencediagram".data.isPrefixOf t then .sequence
  else if "pie".data.isPrefixOf t then .pie
  else if "statediagram".data.isPrefixOf t then .state
  else if "mindmap".data.isPrefixOf t then .mindmap
  else .unknown

/-! ## Pie chart parser (parsePieChart)

The source extracts the title with diagram.match(/pie\s+title\s+(.+)/i)
(a whole-text search: the \s+ may span a line break), collects
"label" : value lines with line.match(/"([^\x22]+)"\s*:\s*(\d+)/), sums
the values, and then walks the raw segments accumulating angles:
currentAngle starts at -π/2 and each segment spans
(value / totalValue) · 2π. -/

/-- Attempt to match the tail \s+(.+) of the title pattern at the given
position: one or more whitespace characters followed by at least one
non-line-terminator character; the capture is the maximal run of
non-line-terminator characters after the greedily chosen whitespace run
(backtracking the greedy \s+ just enough for .+ to be nonempty, exactly as
the JS engine does). -/
def titleTail (cs : List Char) : Option (List Char) :=
  let w := cs.takeWhile jsWs
  let r := cs.dropWhile jsWs
  if w.isEmpty then none
  else
    match r with
    | _ :: _ => some (r.takeWhile notNL)
    | [] =>
      -- The string ends inside the whitespace run: \s+ backtracks and .+
      -- captures the last non-line-terminator whitespace character, as
      -- long as at least one whitespace character remains for \s+.
      match (w.drop 1).reverse.find? notNL with
      | some c => some [c]
      | none => none

/-- Match /pie\s+title\s+(.+)/i at the current position, returning the raw
capture of group 1. -/
def tryPieTitle (cs : List Char) : Option (List Char) := do
  let r1 ← matchCI "pie".data cs
  let w := r1.takeWhile jsWs
  if w.isEmpty then none
  else do
    let r2 ← matchCI "title".data (r1.dropWhile jsWs)
    titleTail r2

/-- The raw capture of diagram.match(/pie\s+title\s+(.+)/i), searched over
the whole diagram text (so the \s+ runs may cross line breaks). -/
def findPieTitle (d : String) : Option (List Char) :=
  scanFirst tryPieTitle d.data

/-- Whether a single line matches the pie-title pattern (used to state the
"no line matching pie title" hypothesis of the spec; within one line no
whitespace run can cross a line break). -/
def lineHasPieTitle (l : List Char) : Bool :=
  (scanFirst tryPieTitle l).isSome

/-- Match /"([^\x22]+)"\s*:\s*(\d+)/ at the current position: an opening
quote, a nonempty maximal run of non-quote characters, a closing quote,
optional whitespace, a colon, optional whitespace, and a nonempty maximal
digit run. -/
def tryPieValue (cs : List Char) : Option (String × ℕ) :=
  match cs with
  | '"' :: rest =>
    let lab := rest.takeWhile (fun c => c ≠ '"')
    if lab.isEmpty then none
    else
      match rest.dropWhile (fun c => c ≠ '"') with
      | '"' :: afterQuote =>
        let afterColonWs := afterQuote.dropWhile jsWs
        match afterColonWs with
        | ':' :: afterColon =>
          let ds := (afterColon.dropWhile jsWs).takeWhile Char.isDigit
          if ds.isEmpty then none else some (String.mk lab, digitsToNat ds)
        | _ => none
      | _ => none
  | _ => none

/-- The "label" : value pairs of the diagram, in text order: the per-line
leftmost match of the value pattern, skipping lines without a match. -/
def pieRawSegments (d : String) : List (String × ℕ) :=
  (diagramLines d).filterMap (fun l => scanFirst tryPieValue l)

/-- The accumulated totalValue: the sum of all matched values. -/
def pieTotal (d : String) : ℕ :=
  (pieRawSegments d).foldl (fun t p => t + p.2) 0

/-- The fixed colour palette (Tableau 10). -/
def pieColors : List String :=
  [String.mk ('#' :: "4e79a7".data), String.mk ('#' :: "f28e2b".data),
   String.mk ('#' :: "e15759".data), String.mk ('#' :: "76b7b2".data),
   String.mk ('#' :: "59a14f".data), String.mk ('#' :: "edc948".data),
   String.mk ('#' :: "b07aa1".data), String.mk ('#' :: "ff9da7".data),
   String.mk ('#' :: "9c755f".data), String.mk ('#' :: "bab0ac".data)]

structure PieSegment where
  label : String
  value : ℕ
  color : String
  /-- Start angle in units of π; none is NaN. -/
  startAngle : Option ℚ
  /-- End angle in units of π; none is NaN. -/
  endAngle : Option ℚ
deriving DecidableEq, Repr

structure PieData where
  segments : List PieSegment
  title : String
deriving DecidableEq, Repr

/-- The forEach loop of parsePieChart over the raw segments: index i,
running currentAngle cur (in units of π), and for each raw segment an
angular span of (value / total) · 2 (units of π; the source multiplies by
Math.PI · 2). -/
def pieSegmentsGo (total : ℕ) : ℕ → Option ℚ → List (String × ℕ) → List PieSegment
  | _, _, [] => []
  | i, cur, (lab, v) :: rest =>
    let angle := jsMul (jsDiv (some (v : ℚ)) (some (total : ℚ))) (some 2)
    { label := lab, value := v,
      color := pieColors.getD (i % pieColors.length) (String.mk []),
      startAngle := cur, endAngle := jsAdd cur angle }
      :: pieSegmentsGo total (i + 1) (jsAdd cur angle) rest

/-- Embedding of parsePieChart: the title (defaulting to "Pie Chart" when
the title pattern finds no match, and trimmed when it does), and the
segments with their accumulated angles, starting at -π/2 (that is, -1/2 in
units of π). -/
def parsePieChart (d : String) : PieData :=
  { title :=
      match findPieTitle d with
      | some t => String.mk (jsTrim t)
      | none => "Pie Chart"
    segments := pieSegmentsGo (pieTotal d) 0 (some (-(1/2 : ℚ))) (pieRawSegments d) }

/-! ## Animation sequencer (getOpacity and the visible counts)

Frame numbers are naturals (the frame counter of the rendering host);
framesPerElement is a number, modelled as ℚ in getOpacity.  The visible
counts compare i * framesPerElement against the frame; they are stated
over natural step and frame values, which is the deployed configuration
(the component default is 20 and the CLI passes whole frame counts). -/

/-- Embedding of getOpacity: 0 before the slot's start frame
k · framesPerElement, then a linear ramp (frame − start) / (step · 0.5)
clamped to 1. -/
def getOpacity (s : ℚ) (f : ℕ) (k : ℕ) : ℚ :=
  if (f : ℚ) < (k : ℚ) * s then 0
  else min (((f : ℚ) - (k : ℚ) * s) / (s * (1 / 2))) 1

/-- An entry of the flowchart reveal sequence: a node index or an edge
index. -/
inductive SlotTag where
  | node (i : ℕ)
  | edge (i : ℕ)
deriving DecidableEq, Repr

/-- Embedding of the flowchart sequence construction: for i from 0 to
max(n, m) − 1, push node i when i < n and then edge i when i < m. -/
def flowSequence (n m : ℕ) : List SlotTag :=
  (List.range (max n m)).flatMap (fun i =>
    (if i < n then [SlotTag.node i] else []) ++ (if i < m then [SlotTag.edge i] else []))

/-- The number of indices i < L with i · s ≤ f; the common shape of all
the visible counts below. -/
def countUpTo (L s f : ℕ) : ℕ := (List.range L).countP (fun k => k * s ≤ f)

/-- Flowchart visible count: sequence.filter((_, i) => frame >= i * step)
.length. -/
def flowVisibleCount (n m s f : ℕ) : ℕ :=
  (flowSequence n m).enum.countP (fun p => p.1 * s ≤ f)

/-- Pie visible count: pieData.segments.filter((_, i) =>
frame >= i * step).length — note it filters the segments, not the title
slot plus the segments. -/
def pieVisibleCount (segs : List PieSegment) (s f : ℕ) : ℕ :=
  segs.enum.countP (fun p => p.1 * s ≤ f)

/-- Sequence / state / mindmap visible count:
Array.from({length: total}, (_, i) => i).filter(i => frame >= i * step)
.length, where total is actors+messages, nodes+transitions, or
nodes+connections respectively. -/
def arrayRangeCount (total s f : ℕ) : ℕ :=
  (List.range total).countP (fun i => i * s ≤ f)

/-- The slot indices of the pie reveal order, read off the renderer's
getOpacity call sites: the title is drawn with opacity getOpacity 0 and
segment i with getOpacity (i + 1). -/
def pieSlots (nseg : ℕ) : List ℕ := 0 :: (List.range nseg).map (fun i => i + 1)

/-- The slot indices of the sequence-diagram reveal order: actor i at
slot i, message j at slot (actors + j). -/
def seqSlots (a m : ℕ) : List ℕ :=
  List.range a ++ (List.range m).map (fun j => a + j)

/-- The slot indices of the state-diagram reveal order: node i at slot i,
transition j at slot (nodes + j). -/
def stateSlots (n t : ℕ) : List ℕ :=
  List.range n ++ (List.range t).map (fun j => n + j)

/-- The slot of a mindmap connection: the later of its endpoints' node
slots (the renderer draws it with getOpacity (max fromIdx toIdx)). -/
def mindConnSlot (fromIdx toIdx : ℕ) : ℕ := max fromIdx toIdx

/-- The distinct slot indices of the mindmap reveal order: node i at
slot i; connections share their endpoints' slots and add no slot of their
own. -/
def mindSlots (nn : ℕ) : List ℕ := List.range nn

/-- The slot indices of the flowchart reveal order: the entry at position
i of the interleaved sequence occupies slot i. -/
def flowSlots (n m : ℕ) : List ℕ := List.range (flowSequence n m).length

/-- The number of slots of a reveal order whose start frame
slot · framesPerElement has passed at frame f. -/
def slotsPassed (slots : List ℕ) (s f : ℕ) : ℕ :=
  slots.countP (fun k => k * s ≤ f)

/-- JS number subtraction with NaN: none is NaN and propagates; used to
state angular spans endAngle − startAngle. -/
def jsSub : Option ℚ → Option ℚ → Option ℚ
  | some a, some b => some (a - b)
  | _, _ => none

/-- The sum of the values of the first i raw segments (the prefix sums
that the angle accumulation of parsePieChart walks through). -/
def pieValuePrefix (rs : List (String × ℕ)) (i : ℕ) : ℕ :=
  ((rs.take i).map (fun p => p.2)).sum

/-! ## Flowchart data model and topological sort

The geometry map (a JS Map from cleaned node id to node data, insertion
ordered with unique keys) is modelled as a List NodeData whose ids are
assumed distinct; edges are the edges recovered from the text that were
accepted because both endpoints are present in the geometry map. -/

inductive NodeShape where
  | rect | diamond | circle | rounded
deriving DecidableEq, Repr

structure NodeData where
  id : String
  label : String
  x : ℚ
  y : ℚ
  width : ℚ
  height : ℚ
  shape : NodeShape
deriving DecidableEq, Repr

structure EdgeData where
  /-- Source node id (the field named "from" in the source). -/
  efrom : String
  /-- Target node id (the field named "to" in the source). -/
  eto : String
  elabel : Option String
  points : List (ℚ × ℚ)
deriving DecidableEq, Repr

def idsOf (nodeMap : List NodeData) : List String := nodeMap.map (fun n => n.id)

/-- nodeMap.get(s)?.y || 0 — the sort key used for tie-breaking. -/
def yOf (nodeMap : List NodeData) (s : String) : ℚ :=
  match nodeMap.find? (fun n => n.id = s) with
  | some n => n.y
  | none => 0

/-- The adjacency list of s: the Map is initialised with one empty list
per geometry-map key, and every edge appends its target to its source's
list (adjacency.get(edge.from)?.push(edge.to) is a no-op for a source
outside the map). -/
def adjOf (nodeMap : List NodeData) (edges : List EdgeData) (s : String) : List String :=
  if s ∈ idsOf nodeMap then (edges.filter (fun e => e.efrom = s)).map (fun e => e.eto) else []

/-- The initial in-degree of s: zero for every geometry-map key, then one
increment per edge into s. -/
def initInDeg (nodeMap : List NodeData) (edges : List EdgeData) (s : String) : ℤ :=
  if s ∈ idsOf nodeMap then (edges.countP (fun e => e.eto = s) : ℤ) else 0

/-- Stable insertion of x into a list sorted ascending by key: x is placed
before the first element whose key is ≥ its own, so that elements with
equal keys keep their original relative order. -/
def insertByKey (key : String → ℚ) (x : String) : List String → List String
  | [] => [x]
  | y :: ys => if key x ≤ key y then x :: y :: ys else y :: insertByKey key x ys

/-- Stable ascending sort by key — the behaviour of the source's
array.sort((a, b) => key(a) - key(b)) (JS sort is stable). -/
def sortByKey (key : String → ℚ) : List String → List String
  | [] => []
  | x :: xs => insertByKey key x (sortByKey key xs)

/-- The neighbors.forEach body of the Kahn loop: for each target t in the
adjacency list of the node just visited, newDegree =
(inDegree.get(t) || 0-is-falsy-so-1) - 1 (the || 1 applies when the stored
degree is 0), the degree map is updated, and t is collected for the queue
when newDegree = 0 and t is unvisited; collected order is iteration
order. -/
def processNeighbors (inDeg : String → ℤ) (visited : List String) :
    List String → (String → ℤ) × List String
  | [] => (inDeg, [])
  | t :: ts =>
    let newDeg := (if inDeg t = 0 then 1 else inDeg t) - 1
    let inDeg2 := fun s => if s = t then newDeg else inDeg s
    let r := processNeighbors inDeg2 visited ts
    (r.1, (if newDeg = 0 ∧ t ∉ visited then [t] else []) ++ r.2)

/-- The strings that can ever appear in the Kahn queue (geometry-map keys
and edge targets); used only for the termination measure. -/
def kahnUniverse (nodeMap : List NodeData) (edges : List EdgeData) : List String :=
  (idsOf nodeMap ++ edges.map (fun e => e.eto)).dedup

/-- The while (queue.length > 0) loop of topologicalSort: pop the queue
head; skip it when already visited; otherwise mark it visited, append its
node to the result, decrement its targets' degrees collecting the ones
that reached zero, and push them sorted by y.  Returns the result list and
the visited list (in visit order). -/
def kahnLoop (nodeMap : List NodeData) (edges : List EdgeData) :
    List String → (String → ℤ) → List String → List NodeData →
    List NodeData × List String
  | [], _, visited, result => (result, visited)
  | current :: rest, inDeg, visited, result =>
    if hv : current ∈ visited then
      kahnLoop nodeMap edges rest inDeg visited result
    else
      let visited2 := visited ++ [current]
      let result2 := result ++ (nodeMap.find? (fun n => n.id = current)).toList
      let pr := processNeighbors inDeg visited2 (adjOf nodeMap edges current)
      kahnLoop nodeMap edges (rest ++ sortByKey (yOf nodeMap) pr.2) pr.1 visited2 result2
termination_by queue _ visited _ =>
  (((kahnUniverse nodeMap edges).toFinset.filter (fun u => u ∉ visited)).card,
   queue.length)
decreasing_by
  · apply Prod.Lex.right
    simp
  · by_cases hu : current ∈ kahnUniverse nodeMap edges
    · apply Prod.Lex.left
      apply Finset.card_lt_card
      constructor
      · apply Finset.monotone_filter_right
        intro u hu2
        simp only [List.mem_append, List.mem_singleton, not_or] at hu2
        exact hu2.1
      · intro hsub
        have h1 : current ∈
            (kahnUniverse nodeMap edges).toFinset.filter (fun u => u ∉ visited) := by
          simp only [Finset.mem_filter, List.mem_toFinset]
          exact ⟨hu, hv⟩
        have h2 := hsub h1
        simp [List.mem_append] at h2
    · have hids : current ∉ idsOf nodeMap := by
        intro h
        exact hu (by
          simp only [kahnUniverse, List.mem_dedup, List.mem_append]
          exact Or.inl h)
      have hadj : adjOf nodeMap edges current = [] := by
        simp only [adjOf, if_neg hids]
      have hq : rest ++ sortByKey (yOf nodeMap)
          (processNeighbors inDeg (visited ++ [current])
            (adjOf nodeMap edges current)).2 = rest := by
        rw [hadj]
        simp [processNeighbors, sortByKey]
      have hfil : ((kahnUniverse nodeMap edges).toFinset.filter
            (fun u => u ∉ visited ++ [current])).card =
          ((kahnUniverse nodeMap edges).toFinset.filter (fun u => u ∉ visited)).card := by
        apply congrArg Finset.card
        apply Finset.filter_congr
        intro u hu2
        simp only [List.mem_toFinset] at hu2
        have hne : u ≠ current := fun h => hu (h ▸ hu2)
        simp [List.mem_append, hne]
      rw [hq, hfil]
      apply Prod.Lex.right
      simp

/-- Embedding of topologicalSort (Kahn's algorithm): initial queue = the
zero-in-degree geometry-map keys in map order, sorted ascending by y;
after the loop, nodes never visited (cycle members) are appended in map
order. -/
def topologicalSort (nodeMap : List NodeData) (edges : List EdgeData) : List NodeData :=
  let inDeg0 := initInDeg nodeMap edges
  let queue0 := sortByKey (yOf nodeMap) ((idsOf nodeMap).filter (fun s => inDeg0 s = 0))
  let st := kahnLoop nodeMap edges queue0 inDeg0 [] []
  st.1 ++ nodeMap.filter (fun n => n.id ∉ st.2)

/-- The remaining in-degree of v once the nodes of visited have been
processed: the number of accepted edges into v whose source is still
unvisited (and 0 for a string outside the geometry map, whose degree entry
is never created).  The Kahn loop's degree map always holds exactly these
values (kahnLoop_spec below). -/
def remainDeg (nodeMap : List NodeData) (edges : List EdgeData)
    (visited : List String) (v : String) : ℤ :=
  if v ∈ idsOf nodeMap then
    (edges.countP (fun e => e.eto = v ∧ e.efrom ∉ visited) : ℤ)
  else 0

/-- The loop invariant of the Kahn traversal: queue entries are
geometry-map keys; visited is a duplicate-free list of keys listing, in
order, the ids of the result nodes (which are geometry-map nodes); the
degree map holds the remaining in-degrees; unvisited queued nodes have
remaining in-degree 0; unvisited keys with remaining in-degree 0 are
queued; and visited is topologically ordered (every edge into a visited
node comes from an earlier visited node). -/
def KahnInv (nodeMap : List NodeData) (edges : List EdgeData)
    (queue : List String) (inDeg : String → ℤ) (visited : List String)
    (result : List NodeData) : Prop :=
  (∀ q ∈ queue, q ∈ idsOf nodeMap) ∧
  visited.Nodup ∧
  (∀ v ∈ visited, v ∈ idsOf nodeMap) ∧
  result.map (fun n => n.id) = visited ∧
  (∀ nd ∈ result, nd ∈ nodeMap) ∧
  (∀ v, inDeg v = remainDeg nodeMap edges visited v) ∧
  (∀ q ∈ queue, q ∉ visited → remainDeg nodeMap edges visited q = 0) ∧
  (∀ v ∈ idsOf nodeMap, v ∉ visited → remainDeg nodeMap edges visited v = 0 → v ∈ queue) ∧
  (∀ e ∈ edges, e.eto ∈ visited →
    e.efrom ∈ visited ∧ visited.indexOf e.efrom < visited.indexOf e.eto)

/-- What the Kahn loop guarantees about its final state (result, visited):
visited is a duplicate-free list of geometry-map keys, equal to the ids of
the result nodes (which come from the map); every unvisited key still has
an unvisited predecessor (the loop only stalls on cycles); and visited is
topologically ordered. -/
def KahnFinal (nodeMap : List NodeData) (edges : List EdgeData)
    (st : List NodeData × List String) : Prop :=
  st.2.Nodup ∧
  (∀ v ∈ st.2, v ∈ idsOf nodeMap) ∧
  st.1.map (fun n => n.id) = st.2 ∧
  (∀ nd ∈ st.1, nd ∈ nodeMap) ∧
  (∀ v ∈ idsOf nodeMap, v ∉ st.2 → remainDeg nodeMap edges st.2 v ≠ 0) ∧
  (∀ e ∈ edges, e.eto ∈ st.2 →
    e.efrom ∈ st.2 ∧ st.2.indexOf e.efrom < st.2.indexOf e.eto)

/-- A two-node flowchart geometry map (A above B) used to exercise the
topological sort on a concrete acyclic input. -/
def demoFlowNodes : List NodeData :=
  [⟨"A", "A", 0, 0, 10, 10, NodeShape.rect⟩,
   ⟨"B", "B", 0, 100, 10, 10, NodeShape.rect⟩]

/-- The single accepted edge A → B of the two-node demo flowchart. -/
def demoFlowEdges : List EdgeData :=
  [⟨"A", "B", none, []⟩]

/-- The edge relation of a flowchart: a is joined to b by some accepted
edge. -/
def hasEdge (edges : List EdgeData) (a b : String) : Prop :=
  ∃ e ∈ edges, e.efrom = a ∧ e.eto = b

/-- Acyclicity of the accepted edge set: no node reaches itself through a
nonempty chain of edges. -/
def Acyclic (edges : List EdgeData) : Prop :=
  ∀ v, ¬ Relation.TransGen (hasEdge edges) v v

/-! ## Sequence diagram parser (parseSequence)

Two passes over the lines: first
line.match(/participant\s+(\w+)(?:\s+as\s+(.+))?/i) collects the actors
at x = 120, 300, 480, ... and fills the id → index map (a later set for a
repeated id overwrites the index, as Map.set does); then
line.match(/(\w+)\s*(--?>>?)\s*(\w+)\s*:\s*(.+)/) collects the messages,
dropping any whose source or destination id is not in the map, at
y = 100, 160, 220, ... (the y step advances only when a message is
emitted). -/

structure StateTransition where
  /-- Source state id (the field named "from" in the source). -/
  tfrom : String
  /-- Target state id (the field named "to" in the source). -/
  tto : String
  tlabel : Option String
deriving DecidableEq, Repr

structure StateNode where
  id : String
  label : String
  x : ℚ
  y : ℚ
  isStart : Bool
  isEnd : Bool
deriving DecidableEq, Repr

/-- Match /\[\*\]\s*-->\s*(\w+)/ at the current position. -/
def tryStStart : List Char → Option String
  | '[' :: '*' :: ']' :: r =>
    (match (r.dropWhile jsWs) with
     | '-' :: '-' :: '>' :: r2 =>
       let w := (r2.dropWhile jsWs).takeWhile wordChar
       if w.isEmpty then none else some (String.mk w)
     | _ => none)
  | _ => none

/-- Match /(\w+)\s*-->\s*\[\*\]$/ at the current position (the $ anchors
the pattern at the end of the line). -/
def tryStEnd (cs : List Char) : Option String :=
  let w := cs.takeWhile wordChar
  if w.isEmpty then none
  else
    match (cs.dropWhile wordChar).dropWhile jsWs with
    | '-' :: '-' :: '>' :: r2 =>
      match r2.dropWhile jsWs with
      | ['[', '*', ']'] => some (String.mk w)
      | _ => none
    | _ => none

/-- Match /(\w+)\s*-->\s*(\w+)(?:\s*:\s*(.+))?/ at the current
position. -/
def tryStTrans (cs : List Char) : Option (String × String × Option String) :=
  let w1 := cs.takeWhile wordChar
  if w1.isEmpty then none
  else
    match (cs.dropWhile wordChar).dropWhile jsWs with
    | '-' :: '-' :: '>' :: r2 =>
      let afterWs := r2.dropWhile jsWs
      let w2 := afterWs.takeWhile wordChar
      if w2.isEmpty then none
      else
        let lab : Option String :=
          match (afterWs.dropWhile wordChar).dropWhile jsWs with
          | ':' :: r3 =>
            let cap := (r3.dropWhile jsWs).takeWhile notNL
            if cap.isEmpty then none else some (String.mk cap)
          | _ => none
        some (String.mk w1, String.mk w2, lab)
    | _ => none

/-- Insertion-ordered set add. -/
def addState (set : List String) (s : String) : List String :=
  if s ∈ set then set else set ++ [s]

/-- One line of the state/transition collection pass. -/
def stLineStep (st : List String × List StateTransition) (l : List Char) :
    List String × List StateTransition :=
  let t := jsTrim l
  match scanFirst tryStStart t with
  | some tgt =>
    (addState (addState st.1 "[*]start") tgt,
     st.2 ++ [⟨"[*]start", tgt, none⟩])
  | none =>
    match scanFirst tryStEnd t with
    | some src =>
      (addState (addState st.1 src) "[*]end",
       st.2 ++ [⟨src, "[*]end", none⟩])
    | none =>
      match scanFirst tryStTrans t with
      | some (a, b, lab) =>
        (addState (addState st.1 a) b,
         st.2 ++ [⟨a, b, (lab.map (fun s => String.mk (jsTrim s.data)))⟩])
      | none => st

/-- The collected state set (insertion order) of a state diagram. -/
def stStates (d : String) : List String :=
  ((diagramLines d).foldl stLineStep ([], [])).1

/-- The collected transition list of a state diagram. -/
def stTransitions (d : String) : List StateTransition :=
  ((diagramLines d).foldl stLineStep ([], [])).2

/-- The in-degree of a state: one increment per transition into it. -/
def stInDeg (transitions : List StateTransition) (s : String) : ℕ :=
  transitions.countP (fun t => t.tto = s)

/-- The adjacency list of a state (the adjacency Map is initialised over
the state set, so a source outside the set has no list). -/
def stAdj (states : List String) (transitions : List StateTransition)
    (s : String) : List String :=
  if s ∈ states then (transitions.filter (fun t => t.tfrom = s)).map (fun t => t.tto)
  else []

/-- Whether the association list of levels carries a key. -/
def keyMem (levels : List (String × ℕ)) (s : String) : Bool :=
  levels.any (fun p => p.1 = s)

/-- Lookup in the association list of levels (keys are unique: a key is
appended only when absent). -/
def keyGet (levels : List (String × ℕ)) (s : String) : Option ℕ :=
  (levels.find? (fun p => p.1 = s)).map (fun p => p.2)

/-- The universe of strings that can ever be queued by the breadth-first
traversal (states and transition targets); used only for the termination
measure. -/
def bfsUniverse (states : List String) (transitions : List StateTransition) :
    List String :=
  (states ++ transitions.map (fun t => t.tto)).dedup

/-- The breadth-first level computation.  The source pops a state and
assigns level (its own level + 1) to each of its not-yet-levelled
neighbours in adjacency order, pushing them; this loop performs the same
assignments and pushes in the same order, handling one neighbour per
iteration: while the popped state still has a not-yet-levelled neighbour,
the first such neighbour is levelled and pushed and the state stays at the
front of the queue; when none is left the state is dropped. -/
def bfsLoop (states : List String) (transitions : List StateTransition) :
    List String → List (String × ℕ) → List (String × ℕ)
  | [], levels => levels
  | current :: rest, levels =>
    match hnb : (stAdj states transitions current).find? (fun nb => !(keyMem levels nb)) with
    | some nb =>
      bfsLoop states transitions (current :: rest ++ [nb])
        (levels ++ [(nb, ((keyGet levels current).getD 0) + 1)])
    | none => bfsLoop states transitions rest levels
termination_by queue levels =>
  (((bfsUniverse states transitions).toFinset.filter
      (fun u => ¬ keyMem levels u = true)).card, queue.length)
decreasing_by
  · apply Prod.Lex.left
    apply Finset.card_lt_card
    have hnbmem : nb ∈ stAdj states transitions current ∧ ¬ keyMem levels nb = true := by
      have h1 := List.find?_some hnb
      have h2 := List.mem_of_find?_eq_some hnb
      simp only [Bool.not_eq_true'] at h1
      exact ⟨h2, by simp [h1]⟩
    have hnbuniv : nb ∈ bfsUniverse states transitions := by
      simp only [bfsUniverse, List.mem_dedup, List.mem_append]
      rcases hnbmem with ⟨hmem, _⟩
      simp only [stAdj] at hmem
      by_cases hs : current ∈ states
      · rw [if_pos hs] at hmem
        simp only [List.mem_map, List.mem_filter] at hmem
        obtain ⟨t, _, ht2⟩ := hmem
        exact Or.inr (by
          simp only [List.mem_map]
          exact ⟨t, by tauto⟩)
      · rw [if_neg hs] at hmem
        cases hmem
    constructor
    · apply Finset.monotone_filter_right
      intro u hu
      intro hcon
      apply hu
      simp only [keyMem, List.any_append, Bool.or_eq_true]
      exact Or.inl (by simpa [keyMem] using hcon)
    · intro hsub
      have h1 : nb ∈ (bfsUniverse states transitions).toFinset.filter
          (fun u => ¬ keyMem levels u = true) := by
        simp only [Finset.mem_filter, List.mem_toFinset]
        exact ⟨hnbuniv, hnbmem.2⟩
      have h2 := hsub h1
      simp only [Finset.mem_filter, List.mem_toFinset] at h2
      apply h2.2
      simp [keyMem]
  · apply Prod.Lex.right
    simp

/-- A fuel-indexed, structurally recursive copy of bfsLoop, used to
evaluate concrete instances (the well-founded recursion of bfsLoop does
not reduce inside the kernel).  With enough fuel it computes exactly
bfsLoop — the theorem bfsLoopF_eq below proves the agreement, so nothing
rests on the fuel version alone. -/
def bfsLoopF (states : List String) (transitions : List StateTransition) :
    ℕ → List String → List (String × ℕ) → List (String × ℕ)
  | 0, _, levels => levels
  | _ + 1, [], levels => levels
  | fuel + 1, current :: rest, levels =>
    match (stAdj states transitions current).find? (fun nb => !(keyMem levels nb)) with
    | some nb =>
      bfsLoopF states transitions fuel (current :: rest ++ [nb])
        (levels ++ [(nb, ((keyGet levels current).getD 0) + 1)])
    | none => bfsLoopF states transitions fuel rest levels

/-- The computed level table of a state diagram, in insertion order:
levels 0 for the initially queued states (in-degree zero or the synthetic
start marker, in state-set order), breadth-first discovery levels next,
and the fallback level 3 appended for states the traversal never reached
(cycle members), in state-set order. -/
def stLevels (d : String) : List (String × ℕ) :=
  let states := stStates d
  let transitions := stTransitions d
  let start := states.filter (fun s => stInDeg transitions s = 0 ∨ s = "[*]start")
  let bfsOut := bfsLoop states transitions start (start.map (fun s => (s, 0)))
  bfsOut ++ (states.filter (fun s => ¬ keyMem bfsOut s = true)).map (fun s => (s, 3))

/-- The level table computed with the fuel-indexed loop and a provably
adequate fuel; equal to stLevels by stLevelsF_eq, and kernel-computable. -/
def stLevelsF (d : String) : List (String × ℕ) :=
  let states := stStates d
  let transitions := stTransitions d
  let start := states.filter (fun s => stInDeg transitions s = 0 ∨ s = "[*]start")
  let bfsOut := bfsLoopF states transitions
    (3 * (bfsUniverse states transitions).length + start.length)
    start (start.map (fun s => (s, 0)))
  bfsOut ++ (states.filter (fun s => ¬ keyMem bfsOut s = true)).map (fun s => (s, 3))

structure StateData where
  nodes : List StateNode
  transitions : List StateTransition

/-- Embedding of parseStateDiagram: collect states and transitions, level
them, and lay each state out at x = 100 + level · 180 and
y = 300 + (indexInGroup − (groupSize − 1)/2) · 120, where the group is the
list of states of the same level in level-table order; the synthetic
markers get an empty label and the isStart / isEnd flags (the renderer
draws a filled circle for isStart and a double ring for isEnd). -/
def parseStateDiagram (d : String) : StateData :=
  let states := stStates d
  let levels := stLevels d
  { nodes := states.map (fun s =>
      let lvl := (keyGet levels s).getD 0
      let group := (levels.filter (fun p => p.2 = lvl)).map (fun p => p.1)
      let idx := group.indexOf s
      let size := group.length
      { id := s
        label := if "[*]".data.isPrefixOf s.data then "" else s
        x := 100 + (lvl : ℚ) * 180
        y := 300 + ((idx : ℚ) - ((size : ℚ) - 1) / 2) * 120
        isStart := s = "[*]start"
        isEnd := s = "[*]end" })
    transitions := stTransitions d }

/-! ## Mindmap parser (parseMindmap)

The indentation of a line (leading whitespace length, divided by 4 and
floored) is its depth level; a stack of ancestors finds each line's
parent.  Level-1 branches are placed around the root at radius 160 and
angle (branchIndex / branchCount)·2π − π/2; deeper nodes at angle
parentAngle + (childIndex − 1)·π/6 and radius 160 + (level − 1)·120, both
measured from the root's centre (400, 300).  Positions are recorded
symbolically: PosSpec.center is the centre point and PosSpec.polar r a is
the point (400 + r·cos(aπ), 300 + r·sin(aπ)) — the toXY function below
produces the coordinates the source stores directly. -/

inductive PosSpec where
  | center
  | polar (radius : ℚ) (angle : ℚ)
deriving DecidableEq, Repr

structure MindmapNode where
  id : String
  label : String
  level : ℕ
  pos : PosSpec
  parentId : Option String
  isRoot : Bool
deriving DecidableEq, Repr

/-- The coordinates denoted by a symbolic position (angles are in units
of π). -/
noncomputable def toXY : PosSpec → ℝ × ℝ
  | PosSpec.center => (400, 300)
  | PosSpec.polar r a =>
    (400 + (r : ℝ) * Real.cos ((a : ℝ) * Real.pi),
     300 + (r : ℝ) * Real.sin ((a : ℝ) * Real.pi))

/-- The prefix of cs preceding the last occurrence of the two-character
sequence )) — the greedy capture of /root\(\((.+)\)\)/ after the literal
root((.  Returns none when no occurrence leaves a nonempty capture. -/
def lastParenCapture (cs : List Char) : Option (List Char) :=
  match ((List.range cs.length).filter (fun i =>
      cs.getD i ' ' = ')' ∧ cs.getD (i + 1) ' ' = ')')).getLast? with
  | some i => if i = 0 then none else some (cs.take i)
  | none => none

/-- Match /root\(\((.+)\)\)/ at the current position (case-sensitive). -/
def tryRoot : List Char → Option (List Char)
  | 'r' :: 'o' :: 'o' :: 't' :: '(' :: '(' :: r => lastParenCapture r
  | _ => none

/-- The level and label of a mindmap line, or none for a line the parser
skips (blank, the mindmap keyword line, or an empty label). -/
def mindLineInfo (l : List Char) : Option (ℕ × String) :=
  let t := jsTrim l
  if t.isEmpty then none
  else if "mindmap".data.isPrefixOf (t.map Char.toLower) then none
  else
    let level := (l.takeWhile jsWs).length / 4
    let label := match scanFirst tryRoot t with
      | some cap => cap
      | none => t
    if label.isEmpty then none else some (level, String.mk label)

/-- The number of level-1 lines (Step 1 of the source, which counts every
non-blank non-keyword line whose indentation level is 1). -/
def mindBranchCount (d : String) : ℕ :=
  ((diagramLines d).filter (fun l =>
    let t := jsTrim l
    ¬ t.isEmpty ∧ ¬ ("mindmap".data.isPrefixOf (t.map Char.toLower)) ∧
      (l.takeWhile jsWs).length / 4 = 1)).length

/-- Pop ancestor-stack entries whose level is ≥ the current level (the
stack top is the list head; entries are id, level, branch angle in units
of π — a root entry's absent branchAngle reads as 0 through the
source's || 0, and is stored as 0 here). -/
def popLevels (level : ℕ) : List (String × ℕ × ℚ) → List (String × ℕ × ℚ)
  | [] => []
  | e :: rest => if level ≤ e.2.1 then popLevels level rest else e :: rest

/-- Accumulator of the mindmap pass. -/
structure MindAcc where
  nodes : List MindmapNode
  conns : List (String × String)
  nodeId : ℕ
  stack : List (String × ℕ × ℚ)
  branchIdx : ℕ
  childCount : String → ℕ

/-- One line of the mindmap pass (Step 2 of the source). -/
def mindStep (branchCount : ℕ) (st : MindAcc) (l : List Char) : MindAcc :=
  match mindLineInfo l with
  | none => st
  | some (level, label) =>
    let id := "node-" ++ toString st.nodeId
    if level = 0 then
      { st with
        nodes := st.nodes ++ [⟨id, label, 0, PosSpec.center, none, true⟩]
        nodeId := st.nodeId + 1
        stack := [(id, 0, 0)] }
    else
      let stack2 := popLevels level st.stack
      match stack2 with
      | [] =>
        { st with
          nodes := st.nodes ++ [⟨id, label, level, PosSpec.center, none, false⟩]
          nodeId := st.nodeId + 1
          stack := (id, level, 0) :: stack2 }
      | parent :: _ =>
        if level = 1 then
          let ang := ((st.branchIdx : ℚ) / (branchCount : ℚ)) * 2 - 1 / 2
          { st with
            nodes := st.nodes ++
              [⟨id, label, level, PosSpec.polar 160 ang, some parent.1, false⟩]
            conns := st.conns ++ [(parent.1, id)]
            nodeId := st.nodeId + 1
            stack := (id, level, ang) :: stack2
            branchIdx := st.branchIdx + 1 }
        else
          let ci := st.childCount parent.1
          let ang := parent.2.2 + ((ci : ℚ) - 1) * (1 / 6)
          let r := 160 + ((level : ℚ) - 1) * 120
          { st with
            nodes := st.nodes ++
              [⟨id, label, level, PosSpec.polar r ang, some parent.1, false⟩]
            conns := st.conns ++ [(parent.1, id)]
            nodeId := st.nodeId + 1
            stack := (id, level, ang) :: stack2
            childCount := fun s => if s = parent.1 then ci + 1 else st.childCount s }

/-- The action of one non-skipped mindmap line on the accumulator, taking
the (level, label) pair directly; mindStep is exactly this action guarded
by the skip test (mindStep_none / mindStep_some below), which lets the
whole pass be computed from the list of non-skipped lines alone. -/
def mindStepP (branchCount : ℕ) (st : MindAcc) (p : ℕ × String) : MindAcc :=
  let level := p.1
  let label := p.2
  let id := "node-" ++ toString st.nodeId
  if level = 0 then
    { st with
      nodes := st.nodes ++ [⟨id, label, 0, PosSpec.center, none, true⟩]
      nodeId := st.nodeId + 1
      stack := [(id, 0, 0)] }
  else
    let stack2 := popLevels level st.stack
    match stack2 with
    | [] =>
      { st with
        nodes := st.nodes ++ [⟨id, label, level, PosSpec.center, none, false⟩]
        nodeId := st.nodeId + 1
        stack := (id, level, 0) :: stack2 }
    | parent :: _ =>
      if level = 1 then
        let ang := ((st.branchIdx : ℚ) / (branchCount : ℚ)) * 2 - 1 / 2
        { st with
          nodes := st.nodes ++
            [⟨id, label, level, PosSpec.polar 160 ang, some parent.1, false⟩]
          conns := st.conns ++ [(parent.1, id)]
          nodeId := st.nodeId + 1
          stack := (id, level, ang) :: stack2
          branchIdx := st.branchIdx + 1 }
      else
        let ci := st.childCount parent.1
        let ang := parent.2.2 + ((ci : ℚ) - 1) * (1 / 6)
        let r := 160 + ((level : ℚ) - 1) * 120
        { st with
          nodes := st.nodes ++
            [⟨id, label, level, PosSpec.polar r ang, some parent.1, false⟩]
          conns := st.conns ++ [(parent.1, id)]
          nodeId := st.nodeId + 1
          stack := (id, level, ang) :: stack2
          childCount := fun s => if s = parent.1 then ci + 1 else st.childCount s }

structure MindData where
  nodes : List MindmapNode
  connections : List (String × String)

/-- Embedding of parseMindmap. -/
def parseMindmap (d : String) : MindData :=
  let acc := (diagramLines d).foldl (mindStep (mindBranchCount d))
    ⟨[], [], 0, [], 0, fun _ => 0⟩
  { nodes := acc.nodes, connections := acc.conns }

/-! ## Helper lemmas -/

theorem countP_enumFrom {α : Type} (q : ℕ → Bool) :
    ∀ (l : List α) (k : ℕ),
      (List.enumFrom k l).countP (fun p => q p.1) = (List.range' k l.length).countP q := by
  intro l
  induction l with
  | nil => intro k; rfl
  | cons a t ih =>
    intro k
    simp only [List.enumFrom_cons, List.length_cons, List.range'_succ,
      List.countP_cons, ih (k + 1)]

theorem countP_enum {α : Type} (q : ℕ → Bool) (l : List α) :
    l.enum.countP (fun p => q p.1) = (List.range l.length).countP q := by
  rw [List.enum, countP_enumFrom, List.range_eq_range']

theorem countP_enum_mul {α : Type} (s f : ℕ) (l : List α) :
    l.enum.countP (fun p => p.1 * s ≤ f) = (List.range l.length).countP (fun i => i * s ≤ f) :=
  countP_enum (fun i => decide (i * s ≤ f)) l

theorem flatMap_chunk_length (n m : ℕ) (L : List ℕ) :
    (L.flatMap (fun i =>
      (if i < n then [SlotTag.node i] else []) ++
      (if i < m then [SlotTag.edge i] else []))).length
    = L.countP (fun i => i < n) + L.countP (fun i => i < m) := by
  induction L with
  | nil => rfl
  | cons a t ih =>
    simp only [List.flatMap_cons, List.countP_cons, List.length_append, ih]
    by_cases h1 : a < n <;> by_cases h2 : a < m <;> simp [h1, h2] <;> omega

theorem countP_range_lt (t K : ℕ) :
    (List.range K).countP (fun i => i < t) = min t K := by
  induction K with
  | zero => simp
  | succ k ih =>
    rw [List.range_succ, List.countP_append, ih]
    by_cases h : k < t <;> simp [h] <;> omega

theorem countP_range_succ_shift (q : ℕ → Bool) (n : ℕ) :
    (List.range (n + 1)).countP q
    = (if q 0 then 1 else 0) + (List.range n).countP (fun i => q (i + 1)) := by
  induction n with
  | zero =>
    cases hq : q 0 <;> simp [List.range_succ, List.countP_cons, hq]
  | succ k ih =>
    rw [List.range_succ, List.countP_append, ih, List.range_succ, List.countP_append]
    simp only [List.countP_singleton]
    omega

theorem flatMap_chunk_count_node (n m i : ℕ) :
    ∀ (L : List ℕ), L.Nodup →
      (L.flatMap (fun j =>
        (if j < n then [SlotTag.node j] else []) ++
        (if j < m then [SlotTag.edge j] else []))).count (SlotTag.node i)
      = if i ∈ L ∧ i < n then 1 else 0 := by
  intro L
  induction L with
  | nil => simp
  | cons a t ih =>
    intro hnd
    rw [List.flatMap_cons, List.count_append, List.count_append,
      ih (List.Nodup.of_cons hnd)]
    have hedge : ∀ j : ℕ,
        (if j < m then [SlotTag.edge j] else []).count (SlotTag.node i) = 0 := by
      intro j
      by_cases h : j < m <;> simp [h, List.count_singleton]
    rw [hedge]
    by_cases hai : a = i
    · subst hai
      have hnotin : a ∉ t := (List.nodup_cons.mp hnd).1
      by_cases h1 : a < n
      · simp [h1, List.count_singleton, hnotin]
      · simp [h1, hnotin]
    · have hcz : (if a < n then [SlotTag.node a] else []).count (SlotTag.node i) = 0 := by
        by_cases h1 : a < n
        · simp [h1, List.count_singleton]
          exact fun h => hai h
        · simp [h1]
      rw [hcz]
      by_cases hit : i ∈ t
      · simp [hit, List.mem_cons, hai]
      · have : ¬ i ∈ a :: t := by
          simp [List.mem_cons, hit]
          exact fun h => hai h.symm
        simp [hit, this]

theorem flatMap_chunk_count_edge (n m j : ℕ) :
    ∀ (L : List ℕ), L.Nodup →
      (L.flatMap (fun i =>
        (if i < n then [SlotTag.node i] else []) ++
        (if i < m then [SlotTag.edge i] else []))).count (SlotTag.edge j)
      = if j ∈ L ∧ j < m then 1 else 0 := by
  intro L
  induction L with
  | nil => simp
  | cons a t ih =>
    intro hnd
    rw [List.flatMap_cons, List.count_append, List.count_append,
      ih (List.Nodup.of_cons hnd)]
    have hnode : ∀ i : ℕ,
        (if i < n then [SlotTag.node i] else []).count (SlotTag.edge j) = 0 := by
      intro i
      by_cases h : i < n <;> simp [h, List.count_singleton]
    rw [hnode]
    by_cases haj : a = j
    · subst haj
      have hnotin : a ∉ t := (List.nodup_cons.mp hnd).1
      by_cases h1 : a < m
      · simp [h1, List.count_singleton, hnotin]
      · simp [h1, hnotin]
    · have hcz : (if a < m then [SlotTag.edge a] else []).count (SlotTag.edge j) = 0 := by
        by_cases h1 : a < m
        · simp [h1, List.count_singleton]
          exact fun h => haj h
        · simp [h1]
      rw [hcz]
      by_cases hjt : j ∈ t
      · simp [hjt, List.mem_cons, haj]
      · have : ¬ j ∈ a :: t := by
          simp [List.mem_cons, hjt]
          exact fun h => haj h.symm
        simp [hjt, this]

/-! ## Claims about the sequencer -/

/-- Claim C6: for every slot index k ≥ 0, frames-per-element step s > 0,
and frame f, the computed opacity is 0 when f < k·s, equals
min((f − k·s) / (s/2), 1) otherwise (a linear ramp over half of one
step's frame span starting at frame k·s), and always lies in [0, 1]. -/
theorem getOpacity_spec (s : ℚ) (hs : 0 < s) (f k : ℕ) :
    ((f : ℚ) < (k : ℚ) * s → getOpacity s f k = 0) ∧
    ((k : ℚ) * s ≤ (f : ℚ) →
      getOpacity s f k = min (((f : ℚ) - (k : ℚ) * s) / (s / 2)) 1) ∧
    0 ≤ getOpacity s f k ∧ getOpacity s f k ≤ 1 := by
  refine ⟨?_, ?_, ?_, ?_⟩
  · intro h
    simp [getOpacity, h]
  · intro h
    rw [getOpacity, if_neg (not_lt.mpr h), mul_one_div]
  · rw [getOpacity]
    by_cases h : (f : ℚ) < (k : ℚ) * s
    · simp [h]
    · rw [if_neg h]
      refine le_min (div_nonneg (sub_nonneg.mpr (not_lt.mp h)) ?_) zero_le_one
      have : (0 : ℚ) < s * (1 / 2) := by
        apply mul_pos hs
        norm_num
      exact le_of_lt this
  · rw [getOpacity]
    by_cases h : (f : ℚ) < (k : ℚ) * s
    · simp [h]
    · rw [if_neg h]
      exact min_le_right _ _

/-- Witness for getOpacity_spec at s = 20, f = 25, k = 1: the opacity is
on the ramp branch. -/
theorem getOpacity_spec_witness :
    (0 : ℚ) < 20 ∧ ((1 : ℕ) : ℚ) * 20 ≤ ((25 : ℕ) : ℚ) ∧
    getOpacity 20 25 1 = min ((((25 : ℕ) : ℚ) - ((1 : ℕ) : ℚ) * 20) / (20 / 2)) 1 := by
  have h1 : (0 : ℚ) < 20 := by decide
  have h2 : ((1 : ℕ) : ℚ) * 20 ≤ ((25 : ℕ) : ℚ) := by
    simp
    decide
  exact ⟨h1, h2, (getOpacity_spec 20 h1 25 1).2.1 h2⟩

/-- Claim C5: the flowchart sequencer interleaves node and edge entries
(node 0, edge 0, node 1, edge 1, ...) up to max(n, m), skipping the
exhausted list; the resulting sequence has exactly n + m entries, contains
every node index < n exactly once and every edge index < m exactly once
(and no other entries), and — slots being list positions — its slot
indices are exactly the gapless, duplicate-free range 0 .. n + m − 1. -/
theorem flowSequence_slots_spec (n m : ℕ) :
    (flowSequence n m).length = n + m ∧
    (flowSequence n m).Nodup ∧
    (∀ i : ℕ, (flowSequence n m).count (SlotTag.node i) = if i < n then 1 else 0) ∧
    (∀ j : ℕ, (flowSequence n m).count (SlotTag.edge j) = if j < m then 1 else 0) := by
  have hlen : (flowSequence n m).length = n + m := by
    rw [flowSequence, flatMap_chunk_length, countP_range_lt, countP_range_lt]
    omega
  have hnode : ∀ i : ℕ,
      (flowSequence n m).count (SlotTag.node i) = if i < n then 1 else 0 := by
    intro i
    rw [flowSequence, flatMap_chunk_count_node n m i _ (List.nodup_range _)]
    simp only [List.mem_range]
    by_cases h : i < n
    · simp [h, lt_max_of_lt_left h]
    · simp [h]
  have hedge : ∀ j : ℕ,
      (flowSequence n m).count (SlotTag.edge j) = if j < m then 1 else 0 := by
    intro j
    rw [flowSequence, flatMap_chunk_count_edge n m j _ (List.nodup_range _)]
    simp only [List.mem_range]
    by_cases h : j < m
    · simp [h, lt_max_of_lt_right h]
    · simp [h]
  refine ⟨hlen, ?_, hnode, hedge⟩
  rw [List.nodup_iff_count_le_one]
  intro a
  cases a with
  | node i => rw [hnode i]; split <;> omega
  | edge j => rw [hedge j]; split <;> omega

/-- Claim C2 (amended): the aggregate visible count equals the number of
reveal-order slots whose start frame (slot · framesPerElement) has passed
for the flowchart, sequence and state dialects; for pie, the code counts
only segment indices (the count of i < segments.length with i·s ≤ f),
which differs from the count over the actual slot set (title slot 0 plus
segment slots 1..segments.length): once the last slot's start frame has
passed the slot count exceeds the reported count by one; for mindmap, the
code counts indices up to nodes + connections although connections share
their endpoints' slots, so the reported count is an upper bound of the
count over the distinct slots. -/
theorem visibleCount_amended :
    (∀ n m s f : ℕ, flowVisibleCount n m s f = slotsPassed (flowSlots n m) s f) ∧
    (∀ a msgs s f : ℕ, arrayRangeCount (a + msgs) s f = slotsPassed (seqSlots a msgs) s f) ∧
    (∀ nodes trans s f : ℕ,
      arrayRangeCount (nodes + trans) s f = slotsPassed (stateSlots nodes trans) s f) ∧
    (∀ (segs : List PieSegment) (s f : ℕ),
      pieVisibleCount segs s f = arrayRangeCount segs.length s f ∧
      slotsPassed (pieSlots segs.length) s f = arrayRangeCount (segs.length + 1) s f ∧
      (segs.length * s ≤ f →
        slotsPassed (pieSlots segs.length) s f = pieVisibleCount segs s f + 1)) ∧
    (∀ nn conns s f : ℕ,
      slotsPassed (mindSlots nn) s f ≤ arrayRangeCount (nn + conns) s f) := by
  have hpie : ∀ (nseg s f : ℕ),
      slotsPassed (pieSlots nseg) s f = arrayRangeCount (nseg + 1) s f := by
    intro nseg s f
    rw [slotsPassed, pieSlots, arrayRangeCount, countP_range_succ_shift,
      List.countP_cons, List.countP_map]
    simp only [Function.comp_def]
    omega
  refine ⟨?_, ?_, ?_, ?_, ?_⟩
  · intro n m s f
    rw [flowVisibleCount, countP_enum_mul, flowSlots, slotsPassed]
  · intro a msgs s f
    rw [arrayRangeCount, seqSlots, slotsPassed, List.range_add]
  · intro nodes trans s f
    rw [arrayRangeCount, stateSlots, slotsPassed, List.range_add]
  · intro segs s f
    have h1 : pieVisibleCount segs s f = arrayRangeCount segs.length s f := by
      rw [pieVisibleCount, countP_enum_mul, arrayRangeCount]
    refine ⟨h1, hpie segs.length s f, ?_⟩
    intro hlate
    rw [hpie segs.length s f, h1, arrayRangeCount, arrayRangeCount,
      List.range_succ, List.countP_append]
    simp [hlate]
  · intro nn conns s f
    rw [slotsPassed, mindSlots, arrayRangeCount, List.range_add, List.countP_append]
    exact Nat.le_add_right _ _

/-- Claim C2 counterexample: for the pie diagram made of the two lines
pie and "A" : 1, at framesPerElement 20 and frame 20, the code reports 1
visible element, yet the reveal order has two slots (title slot 0 and
segment slot 1) and both start frames 0 and 20 have passed. -/
theorem visibleCount_counterexample :
    pieVisibleCount (parsePieChart "pie\n\"A\" : 1").segments 20 20 = 1 ∧
    slotsPassed (pieSlots (parsePieChart "pie\n\"A\" : 1").segments.length) 20 20 = 2 ∧
    (1 : ℕ) ≠ 2 := by
  refine ⟨by decide, by decide, by decide⟩

/-- Witness for visibleCount_amended: for the one-segment pie diagram at
framesPerElement 20 and frame 20 the last slot's start frame has passed,
and the slot count exceeds the reported count by exactly one. -/
theorem visibleCount_amended_witness :
    (parsePieChart "pie\n\"A\" : 1").segments.length * 20 ≤ 20 ∧
    slotsPassed (pieSlots (parsePieChart "pie\n\"A\" : 1").segments.length) 20 20
      = pieVisibleCount (parsePieChart "pie\n\"A\" : 1").segments 20 20 + 1 := by
  refine ⟨by decide, ?_⟩
  exact (visibleCount_amended.2.2.2.1 (parsePieChart "pie\n\"A\" : 1").segments 20 20).2.2
    (by decide)

/-! ## Claims about the pie chart parser -/

/-- Claim C1 (evaluation at the failing input): the pie diagram made of
the two lines pie and "A" : 0 has one value line, of value 0, so the
parsed total is 0; the division by the total in the proportional-angle
step is NOT guarded, and the parser emits one segment (not zero) whose
end angle is NaN (none in the model). -/
theorem pie_zero_total_emits_nan :
    pieRawSegments "pie\n\"A\" : 0" = [("A", 0)] ∧
    pieTotal "pie\n\"A\" : 0" = 0 ∧
    (parsePieChart "pie\n\"A\" : 0").segments.length = 1 ∧
    (parsePieChart "pie\n\"A\" : 0").segments.map (fun sg => sg.endAngle) = [none] := by
  refine ⟨by decide, by decide, by decide, by decide⟩

/-- Claim C10 counterexample: the diagram made of the two lines pie and
title Hello is classified as a pie diagram and none of its lines matches
the pie-title pattern (no line contains pie followed by title), yet the
whole-text title regex matches across the line break (its \s+ consumes the
newline) and the parsed title is "Hello", not the default "Pie Chart". -/
theorem pie_title_line_counterexample :
    ((diagramLines "pie\ntitle Hello").all (fun l => !(lineHasPieTitle l))) = true ∧
    detectDiagramType "pie\ntitle Hello" = Dialect.pie ∧
    (parsePieChart "pie\ntitle Hello").title = "Hello" ∧
    ("Hello" : String) ≠ "Pie Chart" := by
  refine ⟨by decide, by decide, by decide, by decide⟩

/-- Claim C10 (amended): for every pie diagram text on which the
whole-text title regex /pie\s+title\s+(.+)/i finds no match (rather than:
no single line matching the pattern — the regex's whitespace may span a
line break), the parsed title is the non-empty default "Pie Chart"; the
title slot therefore always exists in the reveal order. -/
theorem pie_title_default_amended (d : String) (h : findPieTitle d = none) :
    (parsePieChart d).title = "Pie Chart" ∧ ("Pie Chart" : String) ≠ "" := by
  constructor
  · simp [parsePieChart, h]
  · decide

/-- Witness for pie_title_default_amended: an untitled pie diagram. -/
theorem pie_title_default_witness :
    findPieTitle "pie\n\"A\" : 50" = none ∧
    (parsePieChart "pie\n\"A\" : 50").title = "Pie Chart" := by
  have h : findPieTitle "pie\n\"A\" : 50" = none := by decide
  exact ⟨h, (pie_title_default_amended _ h).1⟩

theorem pieValuePrefix_zero (rs : List (String × ℕ)) : pieValuePrefix rs 0 = 0 := by
  simp [pieValuePrefix]

theorem pieValuePrefix_cons (lab : String) (v : ℕ) (tl : List (String × ℕ)) (k : ℕ) :
    pieValuePrefix ((lab, v) :: tl) (k + 1) = v + pieValuePrefix tl k := by
  simp [pieValuePrefix, List.take_succ_cons]

theorem foldl_add_snd (l : List (String × ℕ)) :
    ∀ a : ℕ, l.foldl (fun t p => t + p.2) a = a + (l.map (fun p => p.2)).sum := by
  induction l with
  | nil => intro a; simp
  | cons hd tl ih =>
    intro a
    simp [List.foldl_cons, ih, Nat.add_assoc]

theorem pieTotal_eq_sum (d : String) :
    pieTotal d = ((pieRawSegments d).map (fun p => p.2)).sum := by
  rw [pieTotal, foldl_add_snd]
  omega

theorem foldr_jsAdd_somes (g : (String × ℕ) → ℚ) (l : List (String × ℕ)) :
    ((l.map (fun p => some (g p))).foldr jsAdd (some 0)) = some ((l.map g).sum) := by
  induction l with
  | nil => simp
  | cons hd tl ih =>
    simp [List.foldr_cons, ih, jsAdd]

/-- The per-segment characterisation of the angle-accumulating loop of
parsePieChart when the total is positive: labels and values are kept in
order, and the k-th start and end angles are the running start angle plus
2·(prefix sum)/total (in units of π). -/
theorem pieSegmentsGo_maps (V : ℕ) (hV : 0 < V) :
    ∀ (rs : List (String × ℕ)) (i0 : ℕ) (a0 : ℚ),
      ((pieSegmentsGo V i0 (some a0) rs).map (fun sg => (sg.label, sg.value)) = rs) ∧
      ((pieSegmentsGo V i0 (some a0) rs).map (fun sg => sg.startAngle)
        = (List.range rs.length).map
            (fun k => some (a0 + 2 * (pieValuePrefix rs k : ℚ) / (V : ℚ)))) ∧
      ((pieSegmentsGo V i0 (some a0) rs).map (fun sg => sg.endAngle)
        = (List.range rs.length).map
            (fun k => some (a0 + 2 * (pieValuePrefix rs (k + 1) : ℚ) / (V : ℚ)))) ∧
      ((pieSegmentsGo V i0 (some a0) rs).map (fun sg => jsSub sg.endAngle sg.startAngle)
        = rs.map (fun p => some (2 * (p.2 : ℚ) / (V : ℚ)))) := by
  have hVQ : ((V : ℕ) : ℚ) ≠ 0 := Nat.cast_ne_zero.mpr (Nat.pos_iff_ne_zero.mp hV)
  intro rs
  induction rs with
  | nil => intro i0 a0; simp [pieSegmentsGo]
  | cons hd tl ih =>
    intro i0 a0
    obtain ⟨lab, v⟩ := hd
    have hdiv : jsDiv (some ((v : ℕ) : ℚ)) (some ((V : ℕ) : ℚ))
        = some (((v : ℕ) : ℚ) / ((V : ℕ) : ℚ)) := by
      simp [jsDiv, hVQ]
    have hstep : ∀ k : ℕ,
        a0 + 2 * (pieValuePrefix ((lab, v) :: tl) (k + 1) : ℚ) / (V : ℚ)
        = (a0 + ((v : ℚ) / (V : ℚ)) * 2) + 2 * (pieValuePrefix tl k : ℚ) / (V : ℚ) := by
      intro k
      rw [pieValuePrefix_cons]
      push_cast
      field_simp
      ring
    obtain ⟨ih1, ih2, ih3, ih4⟩ := ih (i0 + 1) (a0 + ((v : ℚ) / (V : ℚ)) * 2)
    refine ⟨?_, ?_, ?_, ?_⟩
    · simp only [pieSegmentsGo, hdiv, jsMul, jsAdd, List.map_cons, ih1]
    · simp only [pieSegmentsGo, hdiv, jsMul, jsAdd, List.map_cons, ih2,
        List.length_cons, List.range_succ_eq_map, List.map_map]
      rw [List.cons_eq_cons]
      refine ⟨?_, ?_⟩
      · congr 1
        rw [pieValuePrefix_zero]
        push_cast
        ring
      · apply List.map_congr_left
        intro k _
        simp only [Function.comp_apply, Nat.succ_eq_add_one]
        rw [hstep k]
    · simp only [pieSegmentsGo, hdiv, jsMul, jsAdd, List.map_cons, ih3,
        List.length_cons, List.range_succ_eq_map, List.map_map]
      rw [List.cons_eq_cons]
      refine ⟨?_, ?_⟩
      · congr 1
        rw [hstep 0, pieValuePrefix_zero]
        push_cast
        ring
      · apply List.map_congr_left
        intro k _
        simp only [Function.comp_apply, Nat.succ_eq_add_one]
        rw [hstep (k + 1)]
    · simp only [pieSegmentsGo, hdiv, jsMul, jsAdd, List.map_cons, ih4]
      rw [List.cons_eq_cons]
      refine ⟨?_, rfl⟩
      simp only [jsSub]
      congr 1
      ring

theorem map_range_drop_one {α : Type} (g : ℕ → α) (n : ℕ) :
    (List.map g (List.range (n + 1))).drop 1 = List.map (fun k => g (k + 1)) (List.range n) := by
  rw [List.range_succ_eq_map]
  simp [List.map_map, Function.comp_def, Nat.succ_eq_add_one]

theorem map_range_dropLast {α : Type} (h : ℕ → α) (n : ℕ) :
    (List.map h (List.range (n + 1))).dropLast = List.map h (List.range n) := by
  rw [List.range_succ, List.map_append]
  simp

/-- Claim C3: for every pie diagram whose parsed segments have positive
total value V, the emitted segments appear in declaration order with their
parsed labels and values; each segment's angular span
endAngle − startAngle equals (value / V) · 2π; the first segment starts at
−π/2; each subsequent segment's start angle equals the previous segment's
end angle (contiguous, no gaps or overlaps); and the spans sum exactly to
2π.  Angles are in units of π, so 2π is the rational 2 and −π/2 is −1/2;
the rational model makes the float-tolerance equalities exact. -/
theorem pie_angles_spec (d : String) (hV : 0 < pieTotal d) :
    ((parsePieChart d).segments.map (fun sg => (sg.label, sg.value)) = pieRawSegments d) ∧
    ((parsePieChart d).segments.map (fun sg => sg.startAngle)
      = (List.range (pieRawSegments d).length).map
          (fun k => some (-(1 / 2 : ℚ)
            + 2 * (pieValuePrefix (pieRawSegments d) k : ℚ) / (pieTotal d : ℚ)))) ∧
    ((parsePieChart d).segments.map (fun sg => sg.endAngle)
      = (List.range (pieRawSegments d).length).map
          (fun k => some (-(1 / 2 : ℚ)
            + 2 * (pieValuePrefix (pieRawSegments d) (k + 1) : ℚ) / (pieTotal d : ℚ)))) ∧
    (((parsePieChart d).segments.map (fun sg => sg.startAngle)).drop 1
      = ((parsePieChart d).segments.map (fun sg => sg.endAngle)).dropLast) ∧
    (∀ sg0, (parsePieChart d).segments.head? = some sg0 →
      sg0.startAngle = some (-(1 / 2 : ℚ))) ∧
    ((parsePieChart d).segments.map (fun sg => jsSub sg.endAngle sg.startAngle)
      = (pieRawSegments d).map
          (fun p => some (2 * (p.2 : ℚ) / (pieTotal d : ℚ)))) ∧
    (((parsePieChart d).segments.map
        (fun sg => jsSub sg.endAngle sg.startAngle)).foldr jsAdd (some 0)
      = some 2) := by
  have hsegs : (parsePieChart d).segments
      = pieSegmentsGo (pieTotal d) 0 (some (-(1 / 2 : ℚ))) (pieRawSegments d) := rfl
  obtain ⟨h1, h2, h3, h4⟩ :=
    pieSegmentsGo_maps (pieTotal d) hV (pieRawSegments d) 0 (-(1 / 2 : ℚ))
  have hVQ : ((pieTotal d : ℕ) : ℚ) ≠ 0 :=
    Nat.cast_ne_zero.mpr (Nat.pos_iff_ne_zero.mp hV)
  refine ⟨by rw [hsegs, h1], by rw [hsegs, h2], by rw [hsegs, h3], ?_, ?_, by rw [hsegs, h4], ?_⟩
  · rw [hsegs, h2, h3]
    cases hn : (pieRawSegments d).length with
    | zero => simp
    | succ n =>
      rw [map_range_drop_one, map_range_dropLast]
  · intro sg0 hsg0
    have hmem : ((parsePieChart d).segments.map (fun sg => sg.startAngle)).head?
        = some sg0.startAngle := by
      rw [List.head?_map, hsg0]
      rfl
    rw [hsegs, h2] at hmem
    cases hn : (pieRawSegments d).length with
    | zero =>
      rw [hn] at hmem
      simp at hmem
    | succ n =>
      rw [hn, List.range_succ_eq_map, List.map_cons, List.head?_cons,
        Option.some_inj] at hmem
      rw [← hmem, pieValuePrefix_zero]
      push_cast
      ring_nf
  · rw [hsegs, h4, foldr_jsAdd_somes]
    congr 1
    have hcast : ((pieRawSegments d).map (fun p => 2 * (p.2 : ℚ) / (pieTotal d : ℚ))).sum
        = (2 / (pieTotal d : ℚ)) * (((pieRawSegments d).map (fun p => p.2)).sum : ℚ) := by
      rw [← List.sum_map_mul_left]
      push_cast
      apply congrArg
      apply List.map_congr_left
      intro p _
      ring
    have hc2 : (List.map (fun p => ((p.2 : ℕ) : ℚ)) (pieRawSegments d)).sum
        = ((pieTotal d : ℕ) : ℚ) := by
      rw [pieTotal_eq_sum, Nat.cast_list_sum, List.map_map]
      rfl
    rw [hcast, hc2]
    field_simp

/-- Witness for pie_angles_spec at the spec's Scenario 1 input (title
Test, A : 60, B : 40, total 100). -/
theorem pie_angles_spec_witness :
    0 < pieTotal "pie title Test\n\"A\" : 60\n\"B\" : 40" ∧
    ((parsePieChart "pie title Test\n\"A\" : 60\n\"B\" : 40").segments.map
        (fun sg => (sg.label, sg.value))
      = pieRawSegments "pie title Test\n\"A\" : 60\n\"B\" : 40") := by
  have h : 0 < pieTotal "pie title Test\n\"A\" : 60\n\"B\" : 40" := by decide
  exact ⟨h, (pie_angles_spec _ h).1⟩

/-! ## Claims about the sequence diagram parser -/

theorem stAdj_subset_bfsUniverse (states : List String)
    (transitions : List StateTransition) (current nb : String)
    (hmem : nb ∈ stAdj states transitions current) :
    nb ∈ bfsUniverse states transitions := by
  simp only [bfsUniverse, List.mem_dedup, List.mem_append]
  simp only [stAdj] at hmem
  by_cases hs : current ∈ states
  · rw [if_pos hs] at hmem
    simp only [List.mem_map, List.mem_filter] at hmem
    obtain ⟨t, ht1, ht2⟩ := hmem
    exact Or.inr (by
      simp only [List.mem_map]
      exact ⟨t, ht1.1, ht2⟩)
  · rw [if_neg hs] at hmem
    cases hmem

/-- Levelling a fresh universe member strictly shrinks the set of
unlevelled universe members. -/
theorem bfs_card_step (states : List String) (transitions : List StateTransition)
    (levels : List (String × ℕ)) (nb : String) (lvl : ℕ)
    (hmem : nb ∈ bfsUniverse states transitions) (hun : ¬ keyMem levels nb = true) :
    ((bfsUniverse states transitions).toFinset.filter
        (fun u => ¬ keyMem (levels ++ [(nb, lvl)]) u = true)).card
      < ((bfsUniverse states transitions).toFinset.filter
        (fun u => ¬ keyMem levels u = true)).card := by
  apply Finset.card_lt_card
  constructor
  · apply Finset.monotone_filter_right
    intro u hu
    intro hcon
    apply hu
    simp only [keyMem, List.any_append, Bool.or_eq_true]
    exact Or.inl (by simpa [keyMem] using hcon)
  · intro hsub
    have h1 : nb ∈ (bfsUniverse states transitions).toFinset.filter
        (fun u => ¬ keyMem levels u = true) := by
      simp only [Finset.mem_filter, List.mem_toFinset]
      exact ⟨hmem, hun⟩
    have h2 := hsub h1
    simp only [Finset.mem_filter, List.mem_toFinset] at h2
    apply h2.2
    simp [keyMem]

theorem bfsLoop_nil (states : List String) (transitions : List StateTransition)
    (levels : List (String × ℕ)) :
    bfsLoop states transitions [] levels = levels := by
  rw [bfsLoop]

theorem bfsLoop_cons_some (states : List String) (transitions : List StateTransition)
    (current : String) (rest : List String)
    (levels : List (String × ℕ)) (nb : String)
    (hnb : (stAdj states transitions current).find? (fun x => !(keyMem levels x)) = some nb) :
    bfsLoop states transitions (current :: rest) levels
      = bfsLoop states transitions (current :: rest ++ [nb])
          (levels ++ [(nb, ((keyGet levels current).getD 0) + 1)]) := by
  rw [bfsLoop.eq_def]
  simp only [hnb]
  split
  · rename_i nb2 heq
    rw [hnb] at heq
    injection heq with h2
    subst h2
    rfl
  · rename_i heq
    rw [hnb] at heq
    exact Option.noConfusion heq

theorem bfsLoop_cons_none (states : List String) (transitions : List StateTransition)
    (current : String) (rest : List String)
    (levels : List (String × ℕ))
    (hnb : (stAdj states transitions current).find? (fun x => !(keyMem levels x)) = none) :
    bfsLoop states transitions (current :: rest) levels
      = bfsLoop states transitions rest levels := by
  rw [bfsLoop.eq_def]
  simp only [hnb]
  split
  · rename_i nb2 heq
    rw [hnb] at heq
    exact Option.noConfusion heq
  · rfl

/-- With enough fuel (three per unlevelled universe member plus one per
queue entry), the fuel-indexed breadth-first loop computes exactly the
while-loop bfsLoop. -/
theorem bfsLoopF_eq (states : List String) (transitions : List StateTransition) :
    ∀ (fuel : ℕ) (queue : List String) (levels : List (String × ℕ)),
      3 * ((bfsUniverse states transitions).toFinset.filter
            (fun u => ¬ keyMem levels u = true)).card + queue.length ≤ fuel →
      bfsLoopF states transitions fuel queue levels
        = bfsLoop states transitions queue levels := by
  intro fuel
  induction fuel with
  | zero =>
    intro queue levels h
    cases queue with
    | nil => rw [bfsLoopF, bfsLoop_nil]
    | cons a b =>
      simp only [List.length_cons] at h
      omega
  | succ fuel ih =>
    intro queue levels h
    cases queue with
    | nil => rw [bfsLoopF, bfsLoop_nil]
    | cons current rest =>
      cases hnb : (stAdj states transitions current).find? (fun x => !(keyMem levels x)) with
      | some nb =>
        have hmemL : nb ∈ stAdj states transitions current := List.mem_of_find?_eq_some hnb
        have hun : ¬ keyMem levels nb = true := by
          have hp := List.find?_some hnb
          simp only [Bool.not_eq_true'] at hp
          simp [hp]
        have hcard := bfs_card_step states transitions levels nb
          (((keyGet levels current).getD 0) + 1)
          (stAdj_subset_bfsUniverse states transitions current nb hmemL) hun
        rw [bfsLoopF, hnb, bfsLoop_cons_some states transitions current rest levels nb hnb]
        apply ih
        simp only [List.length_append, List.length_cons, List.length_nil,
          List.length_singleton] at h ⊢
        omega
      | none =>
        rw [bfsLoopF, hnb, bfsLoop_cons_none states transitions current rest levels hnb]
        apply ih
        simp only [List.length_cons] at h
        omega

/-- The fuel supplied by stLevelsF is adequate, so stLevelsF computes
stLevels. -/
theorem stLevelsF_eq (d : String) : stLevelsF d = stLevels d := by
  rw [stLevelsF, stLevels]
  have hb := bfsLoopF_eq (stStates d) (stTransitions d)
    (3 * (bfsUniverse (stStates d) (stTransitions d)).length
      + ((stStates d).filter
          (fun s => stInDeg (stTransitions d) s = 0 ∨ s = "[*]start")).length)
    ((stStates d).filter (fun s => stInDeg (stTransitions d) s = 0 ∨ s = "[*]start"))
    (((stStates d).filter
        (fun s => stInDeg (stTransitions d) s = 0 ∨ s = "[*]start")).map (fun s => (s, 0)))
    (by
      have h1 : ((bfsUniverse (stStates d) (stTransitions d)).toFinset.filter
            (fun u => ¬ keyMem (((stStates d).filter
              (fun s => stInDeg (stTransitions d) s = 0 ∨ s = "[*]start")).map
                (fun s => (s, 0))) u = true)).card
          ≤ (bfsUniverse (stStates d) (stTransitions d)).length := by
        calc ((bfsUniverse (stStates d) (stTransitions d)).toFinset.filter _).card
            ≤ (bfsUniverse (stStates d) (stTransitions d)).toFinset.card :=
              Finset.card_filter_le _ _
          _ ≤ (bfsUniverse (stStates d) (stTransitions d)).length :=
              (bfsUniverse (stStates d) (stTransitions d)).toFinset_card_le
      omega)
  rw [hb]

/-- Claim C7: on the input stateDiagram-v2 with transitions
start → Idle → Done → end, the parser produces exactly the four states
synthetic-start, Idle, Done, synthetic-end at breadth-first levels
0, 1, 2, 3, exactly three transitions, the synthetic states carrying an
empty label, the start state flagged isStart (the renderer draws the
filled marker from that flag) and the end state flagged isEnd (drawn as
the double ring). -/
theorem stateDiagram_scenario2 :
    stStates "stateDiagram-v2\n    [*] --> Idle\n    Idle --> Done\n    Done --> [*]"
      = ["[*]start", "Idle", "Done", "[*]end"] ∧
    stTransitions "stateDiagram-v2\n    [*] --> Idle\n    Idle --> Done\n    Done --> [*]"
      = [⟨"[*]start", "Idle", none⟩, ⟨"Idle", "Done", none⟩, ⟨"Done", "[*]end", none⟩] ∧
    stLevels "stateDiagram-v2\n    [*] --> Idle\n    Idle --> Done\n    Done --> [*]"
      = [("[*]start", 0), ("Idle", 1), ("Done", 2), ("[*]end", 3)] ∧
    (parseStateDiagram
        "stateDiagram-v2\n    [*] --> Idle\n    Idle --> Done\n    Done --> [*]").nodes.map
        (fun n => (n.id, n.label, n.isStart, n.isEnd))
      = [("[*]start", "", true, false), ("Idle", "Idle", false, false),
         ("Done", "Done", false, false), ("[*]end", "", false, true)] ∧
    (parseStateDiagram
        "stateDiagram-v2\n    [*] --> Idle\n    Idle --> Done\n    Done --> [*]").transitions.length
      = 3 := by
  have hL : stLevels "stateDiagram-v2\n    [*] --> Idle\n    Idle --> Done\n    Done --> [*]"
      = [("[*]start", 0), ("Idle", 1), ("Done", 2), ("[*]end", 3)] := by
    rw [← stLevelsF_eq]
    decide
  refine ⟨by decide, by decide, hL, ?_, by decide⟩
  simp only [parseStateDiagram, hL]
  decide

/-! ## Claims about the mindmap parser -/

/-- The coordinates of a polar-placed node, for any radian form r of its
angle (stored in units of π). -/
theorem toXY_polar_angle (radius q : ℚ) (r : ℝ) (hq : ((q : ℚ) : ℝ) * Real.pi = r) :
    toXY (PosSpec.polar radius q)
      = (400 + (radius : ℝ) * Real.cos r, 300 + (radius : ℝ) * Real.sin r) := by
  simp only [toXY]
  rw [hq]

/-- The squared distance of a polar-placed node from the mindmap centre
(400, 300) is the squared radius. -/
theorem toXY_polar_dist (radius q : ℚ) :
    ((toXY (PosSpec.polar radius q)).1 - 400) ^ 2
      + ((toXY (PosSpec.polar radius q)).2 - 300) ^ 2 = ((radius : ℚ) : ℝ) ^ 2 := by
  simp only [toXY]
  linear_combination (((radius : ℚ) : ℝ)) ^ 2
    * Real.sin_sq_add_cos_sq (((q : ℚ) : ℝ) * Real.pi)

theorem lastParenCapture_ne_nil (cs cap : List Char)
    (h : lastParenCapture cs = some cap) : cap ≠ [] := by
  unfold lastParenCapture at h
  split at h
  · rename_i i heq
    split at h
    · exact absurd h (by simp)
    · rename_i hne
      injection h with h2
      subst h2
      intro hnil
      rw [List.take_eq_nil_iff] at hnil
      rcases hnil with h0 | h0
      · exact hne h0
      · subst h0
        simp at heq
  · exact absurd h (by simp)

theorem tryRoot_ne_nil (l cap : List Char) (h : tryRoot l = some cap) : cap ≠ [] := by
  unfold tryRoot at h
  split at h
  · exact lastParenCapture_ne_nil _ _ h
  · exact absurd h (by simp)

theorem scanFirst_tryRoot_ne_nil :
    ∀ (l cap : List Char), scanFirst tryRoot l = some cap → cap ≠ [] := by
  intro l
  induction l with
  | nil =>
    intro cap h
    simp only [scanFirst] at h
    rw [show tryRoot ([] : List Char) = none from rfl] at h
    exact absurd h (by simp)
  | cons c cs ih =>
    intro cap h
    simp only [scanFirst] at h
    cases h2 : tryRoot (c :: cs) with
    | some r =>
      simp only [h2] at h
      injection h with h3
      exact h3 ▸ tryRoot_ne_nil _ _ h2
    | none =>
      simp only [h2] at h
      exact ih cap h

/-- A line on which the mindmap pass produces no node is blank or the
mindmap keyword line: the label can never be empty (a trimmed non-blank
line is nonempty, and the root regex capture .+ is nonempty). -/
theorem mindLineInfo_none_skip (l : List Char) (h : mindLineInfo l = none) :
    (jsTrim l).isEmpty ∨ "mindmap".data.isPrefixOf ((jsTrim l).map Char.toLower) := by
  simp only [mindLineInfo] at h
  split at h
  · rename_i h1
    exact Or.inl h1
  · rename_i h1
    split at h
    · rename_i h2
      exact Or.inr h2
    · rename_i h2
      split at h
      · rename_i h3
        exfalso
        cases h4 : scanFirst tryRoot (jsTrim l) with
        | some cap =>
          simp only [h4] at h3
          exact scanFirst_tryRoot_ne_nil _ _ h4 (List.isEmpty_iff.mp h3)
        | none =>
          simp only [h4] at h3
          exact h1 h3
      · exact absurd h (by simp)

/-- A line on which the mindmap pass produces a node is neither blank nor
the keyword line, and the produced level is the line's indentation level. -/
theorem mindLineInfo_some_shape (l : List Char) (p : ℕ × String)
    (h : mindLineInfo l = some p) :
    ¬ (jsTrim l).isEmpty ∧
    ¬ ("mindmap".data.isPrefixOf ((jsTrim l).map Char.toLower)) ∧
    p.1 = (l.takeWhile jsWs).length / 4 := by
  simp only [mindLineInfo] at h
  split at h
  · exact absurd h (by simp)
  · rename_i h1
    split at h
    · exact absurd h (by simp)
    · rename_i h2
      split at h
      · exact absurd h (by simp)
      · injection h with h4
        subst h4
        exact ⟨h1, h2, rfl⟩

theorem mindStep_none (bc : ℕ) (st : MindAcc) (l : List Char)
    (h : mindLineInfo l = none) : mindStep bc st l = st := by
  unfold mindStep
  rw [h]

theorem mindStep_some (bc : ℕ) (st : MindAcc) (l : List Char) (p : ℕ × String)
    (h : mindLineInfo l = some p) : mindStep bc st l = mindStepP bc st p := by
  obtain ⟨lv, lab⟩ := p
  unfold mindStep mindStepP
  rw [h]

/-- The mindmap pass depends only on the non-skipped lines: the fold of
mindStep over the raw lines equals the fold of the unguarded action over
the per-line skip computation's outputs. -/
theorem foldl_mindStep_filterMap (bc : ℕ) :
    ∀ (ls : List (List Char)) (st : MindAcc),
      ls.foldl (mindStep bc) st
        = (ls.filterMap mindLineInfo).foldl (mindStepP bc) st := by
  intro ls
  induction ls with
  | nil =>
    intro st
    rfl
  | cons l t ih =>
    intro st
    rw [List.foldl_cons]
    cases h : mindLineInfo l with
    | none =>
      rw [mindStep_none bc st l h, List.filterMap_cons]
      simp only [h]
      exact ih st
    | some p =>
      rw [mindStep_some bc st l p h, List.filterMap_cons]
      simp only [h, List.foldl_cons]
      exact ih (mindStepP bc st p)

/-- Step 1's branch counter counts exactly the level-1 entries of the
per-line computation (the only lines Step 1 counts but mindLineInfo could
drop would be empty-label lines, which cannot occur). -/
theorem mindBranchCount_lines :
    ∀ ls : List (List Char),
      (ls.filter (fun l =>
        let t := jsTrim l
        ¬ t.isEmpty ∧ ¬ ("mindmap".data.isPrefixOf (t.map Char.toLower)) ∧
          (l.takeWhile jsWs).length / 4 = 1)).length
      = (ls.filterMap mindLineInfo).countP (fun p => p.1 = 1) := by
  intro ls
  induction ls with
  | nil => rfl
  | cons l t ih =>
    cases hinfo : mindLineInfo l with
    | none =>
      have hcond : ¬ (¬ (jsTrim l).isEmpty ∧
          ¬ ("mindmap".data.isPrefixOf ((jsTrim l).map Char.toLower)) ∧
          (l.takeWhile jsWs).length / 4 = 1) := by
        intro hc
        rcases mindLineInfo_none_skip l hinfo with h | h
        · exact hc.1 h
        · exact hc.2.1 h
      simp only [List.filter_cons, List.filterMap_cons, hinfo, decide_eq_true_eq]
      rw [if_neg hcond]
      exact ih
    | some p =>
      obtain ⟨hne, hnh, hlv⟩ := mindLineInfo_some_shape l p hinfo
      simp only [List.filter_cons, List.filterMap_cons, hinfo, decide_eq_true_eq,
        List.countP_cons]
      by_cases hl : (l.takeWhile jsWs).length / 4 = 1
      · rw [if_pos ⟨hne, hnh, hl⟩, if_pos (hlv.trans hl), List.length_cons, ih]
      · rw [if_neg (fun hc => hl hc.2.2), if_neg (fun hc => hl (hlv.symm.trans hc)), ih]
        simp

/-- mindBranchCount through the per-line computation. -/
theorem mindBranchCount_eq (d : String) :
    mindBranchCount d
      = ((diagramLines d).filterMap mindLineInfo).countP (fun p => p.1 = 1) :=
  mindBranchCount_lines (diagramLines d)

/-- Claim C9: for EVERY mindmap input with a root and exactly three
level-1 children and nothing deeper — the hypothesis states, through the
parser's own per-line skip/level/label computation, that the effective
lines are exactly one level-0 root line followed by three level-1 child
lines, with arbitrary labels, indentation and interspersed blank or
keyword lines — the three children are placed at the three evenly spaced
angles −π/2 + k·(2π/3) for k = 0, 1, 2 (consecutive angles differ by
2π/3), each at the fixed branch radius 160 from the root's centre
(400, 300), and the connection list is exactly one root → child
connection per child and nothing else.  Angles in the symbolic positions
are in units of π, so the spacing 2π/3 appears as the rational 2/3; the
toXY conjuncts state the same facts about the actual coordinates. -/
theorem mindmap_three_children_spec (d : String) (rl la lb lc : String)
    (hshape : (diagramLines d).filterMap mindLineInfo
      = [(0, rl), (1, la), (1, lb), (1, lc)]) :
    (parseMindmap d).nodes.map
        (fun n => (n.id, n.label, n.level, n.parentId, n.isRoot))
      = [("node-0", rl, 0, none, true), ("node-1", la, 1, some "node-0", false),
         ("node-2", lb, 1, some "node-0", false),
         ("node-3", lc, 1, some "node-0", false)] ∧
    (parseMindmap d).connections
      = [("node-0", "node-1"), ("node-0", "node-2"), ("node-0", "node-3")] ∧
    (parseMindmap d).nodes.map (fun n => n.pos)
      = [PosSpec.center,
         PosSpec.polar 160 (-(1 / 2) + 0 * (2 / 3)),
         PosSpec.polar 160 (-(1 / 2) + 1 * (2 / 3)),
         PosSpec.polar 160 (-(1 / 2) + 2 * (2 / 3))] ∧
    ((parseMindmap d).nodes.map (fun n => n.pos)).map toXY
      = [((400 : ℝ), (300 : ℝ)),
         (400 + 160 * Real.cos (-(Real.pi / 2) + 0 * (2 * Real.pi / 3)),
          300 + 160 * Real.sin (-(Real.pi / 2) + 0 * (2 * Real.pi / 3))),
         (400 + 160 * Real.cos (-(Real.pi / 2) + 1 * (2 * Real.pi / 3)),
          300 + 160 * Real.sin (-(Real.pi / 2) + 1 * (2 * Real.pi / 3))),
         (400 + 160 * Real.cos (-(Real.pi / 2) + 2 * (2 * Real.pi / 3)),
          300 + 160 * Real.sin (-(Real.pi / 2) + 2 * (2 * Real.pi / 3)))] ∧
    ((parseMindmap d).nodes.map (fun n => n.pos)).map
        (fun p => ((toXY p).1 - 400) ^ 2 + ((toXY p).2 - 300) ^ 2)
      = [0, (160 : ℝ) ^ 2, (160 : ℝ) ^ 2, (160 : ℝ) ^ 2] := by
  have hbc : mindBranchCount d = 3 := by
    rw [mindBranchCount_eq, hshape]
    rfl
  have hfold : (diagramLines d).foldl (mindStep (mindBranchCount d))
        ⟨[], [], 0, [], 0, fun _ => 0⟩
      = ([(0, rl), (1, la), (1, lb), (1, lc)] : List (ℕ × String)).foldl
          (mindStepP 3) ⟨[], [], 0, [], 0, fun _ => 0⟩ := by
    rw [hbc, foldl_mindStep_filterMap 3, hshape]
  have hid0 : "node-" ++ toString (0 : ℕ) = "node-0" := rfl
  have hid1 : "node-" ++ toString (0 + 1 : ℕ) = "node-1" := rfl
  have hid2 : "node-" ++ toString (0 + 1 + 1 : ℕ) = "node-2" := rfl
  have hid3 : "node-" ++ toString (0 + 1 + 1 + 1 : ℕ) = "node-3" := rfl
  have hnr : (parseMindmap d).nodes
      = [⟨"node-" ++ toString (0 : ℕ), rl, 0, PosSpec.center, none, true⟩,
         ⟨"node-" ++ toString (0 + 1 : ℕ), la, 1,
           PosSpec.polar 160 (((0 : ℕ) : ℚ) / ((3 : ℕ) : ℚ) * 2 - 1 / 2),
           some ("node-" ++ toString (0 : ℕ)), false⟩,
         ⟨"node-" ++ toString (0 + 1 + 1 : ℕ), lb, 1,
           PosSpec.polar 160 (((0 + 1 : ℕ) : ℚ) / ((3 : ℕ) : ℚ) * 2 - 1 / 2),
           some ("node-" ++ toString (0 : ℕ)), false⟩,
         ⟨"node-" ++ toString (0 + 1 + 1 + 1 : ℕ), lc, 1,
           PosSpec.polar 160 (((0 + 1 + 1 : ℕ) : ℚ) / ((3 : ℕ) : ℚ) * 2 - 1 / 2),
           some ("node-" ++ toString (0 : ℕ)), false⟩] := by
    show ((diagramLines d).foldl (mindStep (mindBranchCount d))
        ⟨[], [], 0, [], 0, fun _ => 0⟩).nodes = _
    rw [hfold]
    exact rfl
  have hcr : (parseMindmap d).connections
      = [("node-" ++ toString (0 : ℕ), "node-" ++ toString (0 + 1 : ℕ)),
         ("node-" ++ toString (0 : ℕ), "node-" ++ toString (0 + 1 + 1 : ℕ)),
         ("node-" ++ toString (0 : ℕ), "node-" ++ toString (0 + 1 + 1 + 1 : ℕ))] := by
    show ((diagramLines d).foldl (mindStep (mindBranchCount d))
        ⟨[], [], 0, [], 0, fun _ => 0⟩).conns = _
    rw [hfold]
    exact rfl
  have hconns : (parseMindmap d).connections
      = [("node-0", "node-1"), ("node-0", "node-2"), ("node-0", "node-3")] := by
    rw [hcr]
    simp only [hid0, hid1, hid2, hid3]
  have hpos : (parseMindmap d).nodes.map (fun n => n.pos)
      = [PosSpec.center,
         PosSpec.polar 160 (-(1 / 2) + 0 * (2 / 3)),
         PosSpec.polar 160 (-(1 / 2) + 1 * (2 / 3)),
         PosSpec.polar 160 (-(1 / 2) + 2 * (2 / 3))] := by
    rw [hnr]
    simp only [List.map_cons, List.map_nil]
    norm_num
  refine ⟨by
    rw [hnr]
    simp only [List.map_cons, List.map_nil, hid0, hid1, hid2, hid3], hconns, hpos, ?_, ?_⟩
  · rw [hpos]
    simp only [List.map_cons, List.map_nil, toXY]
    refine congrArg₂ _ (by norm_num) ?_
    refine congrArg₂ _ ?_ ?_
    · rw [Prod.mk.injEq]
      constructor
      · refine congrArg₂ _ rfl (congrArg _ (congrArg Real.cos ?_))
        push_cast
        ring
      · refine congrArg₂ _ rfl (congrArg _ (congrArg Real.sin ?_))
        push_cast
        ring
    refine congrArg₂ _ ?_ ?_
    · rw [Prod.mk.injEq]
      constructor
      · refine congrArg₂ _ rfl (congrArg _ (congrArg Real.cos ?_))
        push_cast
        ring
      · refine congrArg₂ _ rfl (congrArg _ (congrArg Real.sin ?_))
        push_cast
        ring
    refine congrArg₂ _ ?_ rfl
    rw [Prod.mk.injEq]
    constructor
    · refine congrArg₂ _ rfl (congrArg _ (congrArg Real.cos ?_))
      push_cast
      ring
    · refine congrArg₂ _ rfl (congrArg _ (congrArg Real.sin ?_))
      push_cast
      ring
  · rw [hpos]
    simp only [List.map_cons, List.map_nil]
    rw [toXY_polar_dist, toXY_polar_dist, toXY_polar_dist]
    norm_num [toXY]

/-- The three-children mindmap theorem applied to the concrete Scenario 5
input "mindmap\nroot((Root))\n    A\n    B\n    C": the shape hypothesis
holds by computation and all five conclusions follow. -/
theorem mindmap_three_children_spec_witness :
    ((diagramLines "mindmap\nroot((Root))\n    A\n    B\n    C").filterMap mindLineInfo
      = [(0, "Root"), (1, "A"), (1, "B"), (1, "C")]) ∧
    ((parseMindmap "mindmap\nroot((Root))\n    A\n    B\n    C").nodes.map
        (fun n => (n.id, n.label, n.level, n.parentId, n.isRoot))
      = [("node-0", "Root", 0, none, true), ("node-1", "A", 1, some "node-0", false),
         ("node-2", "B", 1, some "node-0", false),
         ("node-3", "C", 1, some "node-0", false)] ∧
     (parseMindmap "mindmap\nroot((Root))\n    A\n    B\n    C").connections
      = [("node-0", "node-1"), ("node-0", "node-2"), ("node-0", "node-3")] ∧
     (parseMindmap "mindmap\nroot((Root))\n    A\n    B\n    C").nodes.map
        (fun n => n.pos)
      = [PosSpec.center,
         PosSpec.polar 160 (-(1 / 2) + 0 * (2 / 3)),
         PosSpec.polar 160 (-(1 / 2) + 1 * (2 / 3)),
         PosSpec.polar 160 (-(1 / 2) + 2 * (2 / 3))] ∧
     ((parseMindmap "mindmap\nroot((Root))\n    A\n    B\n    C").nodes.map
        (fun n => n.pos)).map toXY
      = [((400 : ℝ), (300 : ℝ)),
         (400 + 160 * Real.cos (-(Real.pi / 2) + 0 * (2 * Real.pi / 3)),
          300 + 160 * Real.sin (-(Real.pi / 2) + 0 * (2 * Real.pi / 3))),
         (400 + 160 * Real.cos (-(Real.pi / 2) + 1 * (2 * Real.pi / 3)),
          300 + 160 * Real.sin (-(Real.pi / 2) + 1 * (2 * Real.pi / 3))),
         (400 + 160 * Real.cos (-(Real.pi / 2) + 2 * (2 * Real.pi / 3)),
          300 + 160 * Real.sin (-(Real.pi / 2) + 2 * (2 * Real.pi / 3)))] ∧
     ((parseMindmap "mindmap\nroot((Root))\n    A\n    B\n    C").nodes.map
        (fun n => n.pos)).map
        (fun p => ((toXY p).1 - 400) ^ 2 + ((toXY p).2 - 300) ^ 2)
      = [0, (160 : ℝ) ^ 2, (160 : ℝ) ^ 2, (160 : ℝ) ^ 2]) :=
  ⟨rfl, mindmap_three_children_spec "mindmap\nroot((Root))\n    A\n    B\n    C"
    "Root" "A" "B" "C" rfl⟩

/-! ## Claims about the flowchart topological sort -/

theorem insertByKey_perm (key : String → ℚ) (x : String) :
    ∀ l : List String, (insertByKey key x l).Perm (x :: l) := by
  intro l
  induction l with
  | nil => rfl
  | cons y ys ih =>
    rw [insertByKey]
    by_cases h : key x ≤ key y
    · rw [if_pos h]
    · rw [if_neg h]
      exact (ih.cons y).trans (List.Perm.swap x y ys)

theorem sortByKey_perm (key : String → ℚ) :
    ∀ l : List String, (sortByKey key l).Perm l := by
  intro l
  induction l with
  | nil => rfl
  | cons x xs ih =>
    rw [sortByKey]
    exact (insertByKey_perm key x (sortByKey key xs)).trans (ih.cons x)

theorem mem_sortByKey (key : String → ℚ) (x : String) (l : List String) :
    x ∈ sortByKey key l ↔ x ∈ l :=
  (sortByKey_perm key l).mem_iff

theorem count_map_eq_countP {α β : Type} [DecidableEq β] (f : α → β) (b : β) :
    ∀ l : List α, (l.map f).count b = l.countP (fun a => f a = b) := by
  intro l
  induction l with
  | nil => rfl
  | cons a t ih =>
    rw [List.map_cons, List.countP_cons]
    by_cases h : f a = b
    · rw [h, List.count_cons_self, ih]
      simp
    · rw [List.count_cons_of_ne (fun hc => h hc.symm), ih]
      simp [h]

theorem count_adjOf (nodeMap : List NodeData) (edges : List EdgeData)
    (current s : String) (hcur : current ∈ idsOf nodeMap) :
    (adjOf nodeMap edges current).count s
      = edges.countP (fun e => e.eto = s ∧ e.efrom = current) := by
  rw [adjOf, if_pos hcur, count_map_eq_countP, List.countP_filter]
  apply List.countP_congr
  intro e _
  simp only [Bool.and_eq_true, decide_eq_true_eq]

theorem countP_split {α : Type} (p q : α → Bool) :
    ∀ l : List α,
      l.countP p = l.countP (fun a => p a && q a) + l.countP (fun a => p a && !q a) := by
  intro l
  induction l with
  | nil => rfl
  | cons a t ih =>
    simp only [List.countP_cons, ih]
    cases hp : p a <;> cases hq : q a <;> simp [hp, hq] <;> omega

theorem nodup_concat_of {α : Type} (l : List α) (a : α) (hnd : l.Nodup) (ha : a ∉ l) :
    (l ++ [a]).Nodup := by
  rw [List.nodup_append]
  exact ⟨hnd, List.nodup_singleton a, by
    intro x hx
    simp only [List.mem_singleton]
    intro hxa
    exact ha (hxa ▸ hx)⟩

theorem indexOf_append_mem {α : Type} [DecidableEq α] (a : α) :
    ∀ (l l2 : List α), a ∈ l → (l ++ l2).indexOf a = l.indexOf a := by
  intro l l2
  induction l with
  | nil => intro h; cases h
  | cons b t ih =>
    intro h
    by_cases hab : a = b
    · subst hab
      simp [List.indexOf_cons_self]
    · rw [List.cons_append, List.indexOf_cons_ne _ (fun hc => hab hc.symm),
        List.indexOf_cons_ne _ (fun hc => hab hc.symm),
        ih (by
          rcases List.mem_cons.mp h with h1 | h1
          · exact absurd h1 hab
          · exact h1)]

theorem indexOf_append_self {α : Type} [DecidableEq α] (a : α) :
    ∀ l : List α, a ∉ l → (l ++ [a]).indexOf a = l.length := by
  intro l
  induction l with
  | nil => intro _; simp
  | cons b t ih =>
    intro h
    have hab : a ≠ b := fun hc => h (hc ▸ List.mem_cons_self b t)
    rw [List.cons_append, List.indexOf_cons_ne _ (fun hc => hab hc.symm),
      ih (fun hc => h (List.mem_cons_of_mem b hc)), List.length_cons]

theorem find?_id_spec (nodeMap : List NodeData) (s : String)
    (h : s ∈ idsOf nodeMap) :
    ∃ nd, nodeMap.find? (fun n => n.id = s) = some nd ∧ nd ∈ nodeMap ∧ nd.id = s := by
  have hex : ∃ nd ∈ nodeMap, nd.id = s := by
    simp only [idsOf, List.mem_map] at h
    obtain ⟨nd, h1, h2⟩ := h
    exact ⟨nd, h1, h2⟩
  have hsome : (nodeMap.find? (fun n => decide (n.id = s))).isSome := by
    rw [List.find?_isSome]
    obtain ⟨nd, h1, h2⟩ := hex
    exact ⟨nd, h1, by simp [h2]⟩
  obtain ⟨nd, hnd⟩ := Option.isSome_iff_exists.mp hsome
  refine ⟨nd, hnd, List.mem_of_find?_eq_some hnd, ?_⟩
  have := List.find?_some hnd
  simpa using this

/-- The neighbors.forEach body of the Kahn loop, characterised: when every
target occurs in the degree map at least as often as in the remaining
list (so the || 1 quirk branch for an exhausted degree is dead), the
resulting map subtracts each target's multiplicity, and the collected
nodes are exactly the unvisited targets whose degree reaches zero. -/
theorem processNeighbors_spec (visited : List String) :
    ∀ (L : List String) (inDeg : String → ℤ),
      (∀ s, (L.count s : ℤ) ≤ inDeg s) →
      (∀ s, (processNeighbors inDeg visited L).1 s = inDeg s - L.count s) ∧
      (∀ s, s ∈ (processNeighbors inDeg visited L).2 ↔
        (s ∈ L ∧ inDeg s = L.count s ∧ s ∉ visited)) := by
  intro L
  induction L with
  | nil =>
    intro inDeg hbound
    refine ⟨fun s => by simp [processNeighbors], fun s => by simp [processNeighbors]⟩
  | cons t ts ih =>
    intro inDeg hbound
    have hpos : 1 ≤ inDeg t := by
      have := hbound t
      rw [List.count_cons_self] at this
      have hc : (0 : ℤ) ≤ (ts.count t : ℤ) := Int.ofNat_nonneg _
      omega
    have hne : ¬ inDeg t = 0 := by omega
    have hdeg : (if inDeg t = 0 then 1 else inDeg t) - 1 = inDeg t - 1 := by
      rw [if_neg hne]
    have hbound2 : ∀ s, ((ts.count s : ℕ) : ℤ)
        ≤ (fun s2 => if s2 = t then inDeg t - 1 else inDeg s2) s := by
      intro s
      by_cases hst : s = t
      · subst hst
        have := hbound s
        rw [List.count_cons_self] at this
        simp only [if_pos rfl]
        push_cast at this ⊢
        omega
      · have := hbound s
        rw [List.count_cons_of_ne hst] at this
        simp only [if_neg hst]
        exact this
    obtain ⟨ih1, ih2⟩ := ih (fun s2 => if s2 = t then inDeg t - 1 else inDeg s2) hbound2
    constructor
    · intro s
      have hfst : (processNeighbors inDeg visited (t :: ts)).1
          = (processNeighbors (fun s2 => if s2 = t then
              (if inDeg t = 0 then 1 else inDeg t) - 1 else inDeg s2) visited ts).1 := rfl
      rw [hfst]
      have hfun : (fun s2 => if s2 = t then (if inDeg t = 0 then 1 else inDeg t) - 1
          else inDeg s2) = (fun s2 => if s2 = t then inDeg t - 1 else inDeg s2) := by
        funext s2
        by_cases hst : s2 = t <;> simp [hst, hne]
      rw [hfun, ih1 s]
      by_cases hst : s = t
      · subst hst
        rw [List.count_cons_self, if_pos rfl]
        push_cast
        omega
      · rw [List.count_cons_of_ne hst, if_neg hst]
    · intro s
      have hsnd : (processNeighbors inDeg visited (t :: ts)).2
          = (if (if inDeg t = 0 then 1 else inDeg t) - 1 = 0 ∧ t ∉ visited
              then [t] else [])
            ++ (processNeighbors (fun s2 => if s2 = t then
              (if inDeg t = 0 then 1 else inDeg t) - 1 else inDeg s2) visited ts).2 := rfl
      have hfun : (fun s2 => if s2 = t then (if inDeg t = 0 then 1 else inDeg t) - 1
          else inDeg s2) = (fun s2 => if s2 = t then inDeg t - 1 else inDeg s2) := by
        funext s2
        by_cases hst : s2 = t <;> simp [hst, hne]
      rw [hsnd, hfun, hdeg, List.mem_append, ih2 s]
      by_cases hst : s = t
      · subst hst
        rw [List.count_cons_self]
        constructor
        · intro hor
          rcases hor with hin | ⟨hmemts, hdeq, hnv⟩
          · have hd1 : inDeg s - 1 = 0 ∧ s ∉ visited := by
              by_cases hc : inDeg s - 1 = 0 ∧ s ∉ visited
              · exact hc
              · rw [if_neg hc] at hin
                cases hin
            have hcnt : ts.count s = 0 := by
              have := hbound s
              rw [List.count_cons_self] at this
              push_cast at this
              omega
            refine ⟨List.mem_cons_self _ _, ?_, hd1.2⟩
            push_cast
            omega
          · rw [if_pos rfl] at hdeq
            refine ⟨List.mem_cons_self _ _, ?_, hnv⟩
            push_cast at hdeq ⊢
            omega
        · intro ⟨hmem, hdeq, hnv⟩
          push_cast at hdeq
          by_cases hcnt : ts.count s = 0
          · left
            have : inDeg s - 1 = 0 := by omega
            rw [if_pos ⟨this, hnv⟩]
            exact List.mem_singleton.mpr rfl
          · right
            refine ⟨List.count_pos_iff.mp (by omega), ?_, hnv⟩
            rw [if_pos rfl]
            omega
      · rw [List.count_cons_of_ne hst, if_neg hst]
        constructor
        · intro hor
          rcases hor with hin | ⟨hmemts, hdeq, hnv⟩
          · exfalso
            by_cases hc : inDeg t - 1 = 0 ∧ t ∉ visited
            · rw [if_pos hc] at hin
              exact hst (List.mem_singleton.mp hin)
            · rw [if_neg hc] at hin
              cases hin
          · exact ⟨List.mem_cons_of_mem t hmemts, hdeq, hnv⟩
        · intro ⟨hmem, hdeq, hnv⟩
          right
          refine ⟨?_, hdeq, hnv⟩
          rcases List.mem_cons.mp hmem with h1 | h1
          · exact absurd h1 hst
          · exact h1

theorem remainDeg_nonneg (nodeMap : List NodeData) (edges : List EdgeData)
    (visited : List String) (v : String) :
    0 ≤ remainDeg nodeMap edges visited v := by
  rw [remainDeg]
  by_cases hv : v ∈ idsOf nodeMap
  · rw [if_pos hv]
    exact Int.ofNat_nonneg _
  · rw [if_neg hv]

/-- Marking one more node visited lowers each remaining in-degree by the
number of accepted edges from that node into v. -/
theorem remainDeg_snoc (nodeMap : List NodeData) (edges : List EdgeData)
    (hacc : ∀ e ∈ edges, e.efrom ∈ idsOf nodeMap ∧ e.eto ∈ idsOf nodeMap)
    (visited : List String) (current : String) (hcv : current ∉ visited) (v : String) :
    remainDeg nodeMap edges (visited ++ [current]) v
      = remainDeg nodeMap edges visited v
        - (edges.countP (fun e => e.eto = v ∧ e.efrom = current) : ℤ) := by
  by_cases hv : v ∈ idsOf nodeMap
  · rw [remainDeg, remainDeg, if_pos hv, if_pos hv]
    have hsplit := countP_split (fun e => decide (e.eto = v ∧ e.efrom ∉ visited))
        (fun e => decide (e.efrom = current)) edges
    have h1 : edges.countP
          (fun e => decide (e.eto = v ∧ e.efrom ∉ visited) && decide (e.efrom = current))
        = edges.countP (fun e => e.eto = v ∧ e.efrom = current) := by
      apply List.countP_congr
      intro e _
      simp only [Bool.and_eq_true, decide_eq_true_eq]
      constructor
      · intro ⟨⟨ha, _⟩, hb⟩
        exact ⟨ha, hb⟩
      · intro ⟨ha, hb⟩
        exact ⟨⟨ha, hb ▸ hcv⟩, hb⟩
    have h2 : edges.countP
          (fun e => decide (e.eto = v ∧ e.efrom ∉ visited) && !decide (e.efrom = current))
        = edges.countP (fun e => e.eto = v ∧ e.efrom ∉ visited ++ [current]) := by
      apply List.countP_congr
      intro e _
      simp only [Bool.and_eq_true, Bool.not_eq_true', decide_eq_false_iff_not,
        decide_eq_true_eq, List.mem_append, List.mem_singleton, not_or]
      tauto
    rw [h1, h2] at hsplit
    omega
  · rw [remainDeg, remainDeg, if_neg hv, if_neg hv]
    have hz : edges.countP (fun e => e.eto = v ∧ e.efrom = current) = 0 := by
      rw [List.countP_eq_zero]
      intro e he
      simp only [decide_eq_true_eq]
      intro ⟨h1, _⟩
      exact hv (h1 ▸ (hacc e he).2)
    rw [hz]
    simp

theorem kahnLoop_nil (nodeMap : List NodeData) (edges : List EdgeData)
    (inDeg : String → ℤ) (visited : List String) (result : List NodeData) :
    kahnLoop nodeMap edges [] inDeg visited result = (result, visited) := by
  rw [kahnLoop.eq_def]

theorem kahnLoop_cons_mem (nodeMap : List NodeData) (edges : List EdgeData)
    (current : String) (rest : List String) (inDeg : String → ℤ)
    (visited : List String) (result : List NodeData) (hv : current ∈ visited) :
    kahnLoop nodeMap edges (current :: rest) inDeg visited result
      = kahnLoop nodeMap edges rest inDeg visited result := by
  rw [kahnLoop.eq_def]
  simp [hv]

theorem kahnLoop_cons_not_mem (nodeMap : List NodeData) (edges : List EdgeData)
    (current : String) (rest : List String) (inDeg : String → ℤ)
    (visited : List String) (result : List NodeData) (hv : current ∉ visited) :
    kahnLoop nodeMap edges (current :: rest) inDeg visited result
      = kahnLoop nodeMap edges
          (rest ++ sortByKey (yOf nodeMap)
            (processNeighbors inDeg (visited ++ [current])
              (adjOf nodeMap edges current)).2)
          (processNeighbors inDeg (visited ++ [current])
            (adjOf nodeMap edges current)).1
          (visited ++ [current])
          (result ++ (nodeMap.find? (fun n => n.id = current)).toList) := by
  rw [kahnLoop.eq_def]
  simp [hv]

/-- Invariant preservation for the Kahn while-loop: from any state
satisfying KahnInv, the loop terminates in a state satisfying
KahnFinal. -/
theorem kahnLoop_spec (nodeMap : List NodeData) (edges : List EdgeData)
    (hacc : ∀ e ∈ edges, e.efrom ∈ idsOf nodeMap ∧ e.eto ∈ idsOf nodeMap) :
    ∀ (queue : List String) (inDeg : String → ℤ) (visited : List String)
      (result : List NodeData),
      KahnInv nodeMap edges queue inDeg visited result →
      KahnFinal nodeMap edges (kahnLoop nodeMap edges queue inDeg visited result) := by
  intro queue inDeg visited result
  induction queue, inDeg, visited, result using kahnLoop.induct with
  | nodeMap => exact nodeMap
  | edges => exact edges
  | case1 inDeg visited result =>
    intro hinv
    simp only [KahnInv] at hinv
    obtain ⟨h1, h2, h3, h4, h5, h6, h7, h8, h9⟩ := hinv
    rw [kahnLoop_nil]
    simp only [KahnFinal]
    refine ⟨h2, h3, h4, h5, ?_, h9⟩
    intro v hvids hvnv hz
    exact absurd (h8 v hvids hvnv hz) (List.not_mem_nil v)
  | case2 current rest inDeg visited result hv ih =>
    intro hinv
    simp only [KahnInv] at hinv
    obtain ⟨h1, h2, h3, h4, h5, h6, h7, h8, h9⟩ := hinv
    rw [kahnLoop_cons_mem _ _ _ _ _ _ _ hv]
    apply ih
    simp only [KahnInv]
    refine ⟨fun q hq => h1 q (List.mem_cons_of_mem _ hq), h2, h3, h4, h5, h6,
      fun q hq => h7 q (List.mem_cons_of_mem _ hq), ?_, h9⟩
    intro v hvids hvnv hz
    rcases List.mem_cons.mp (h8 v hvids hvnv hz) with h | h
    · subst h
      exact absurd hv hvnv
    · exact h
  | case3 current rest inDeg visited result hv visited2 result2 pr ih =>
    intro hinv
    simp only [KahnInv] at hinv
    obtain ⟨h1, h2, h3, h4, h5, h6, h7, h8, h9⟩ := hinv
    rw [kahnLoop_cons_not_mem _ _ _ _ _ _ _ hv]
    refine ih (show KahnInv nodeMap edges
      (rest ++ sortByKey (yOf nodeMap)
        (processNeighbors inDeg (visited ++ [current]) (adjOf nodeMap edges current)).2)
      (processNeighbors inDeg (visited ++ [current]) (adjOf nodeMap edges current)).1
      (visited ++ [current])
      (result ++ (nodeMap.find? (fun n => n.id = current)).toList)
      from ?_)
    have hcur : current ∈ idsOf nodeMap := h1 current (List.mem_cons_self _ _)
    have hLmem : ∀ s ∈ adjOf nodeMap edges current, s ∈ idsOf nodeMap := by
      intro s hs
      rw [adjOf, if_pos hcur] at hs
      obtain ⟨e, he, heq⟩ := List.mem_map.mp hs
      exact heq ▸ (hacc e (List.mem_filter.mp he).1).2
    have hLcount : ∀ s, (adjOf nodeMap edges current).count s
        = edges.countP (fun e => e.eto = s ∧ e.efrom = current) :=
      fun s => count_adjOf nodeMap edges current s hcur
    have hbound : ∀ s, ((adjOf nodeMap edges current).count s : ℤ) ≤ inDeg s := by
      intro s
      rw [h6 s]
      by_cases hs : s ∈ idsOf nodeMap
      · rw [remainDeg, if_pos hs, hLcount s]
        have hmono : edges.countP (fun e => e.eto = s ∧ e.efrom = current)
            ≤ edges.countP (fun e => e.eto = s ∧ e.efrom ∉ visited) := by
          apply List.countP_mono_left
          intro e _ hp
          simp only [decide_eq_true_eq] at hp ⊢
          exact ⟨hp.1, hp.2 ▸ hv⟩
        exact_mod_cast hmono
      · rw [remainDeg, if_neg hs]
        have hz : (adjOf nodeMap edges current).count s = 0 :=
          List.count_eq_zero.mpr (fun hmem => hs (hLmem s hmem))
        rw [hz]
        simp
    obtain ⟨hp1, hp2⟩ := processNeighbors_spec (visited ++ [current])
      (adjOf nodeMap edges current) inDeg hbound
    obtain ⟨nd, hfind, hndmem, hndid⟩ := find?_id_spec nodeMap current hcur
    have hcv2 : ∀ v : String, v ∉ visited ++ [current] ↔ (v ∉ visited ∧ v ≠ current) := by
      intro v
      simp [not_or]
    have hrd : ∀ v, (processNeighbors inDeg (visited ++ [current])
        (adjOf nodeMap edges current)).1 v
        = remainDeg nodeMap edges (visited ++ [current]) v := by
      intro v
      rw [hp1 v, h6 v, remainDeg_snoc nodeMap edges hacc visited current hv v, hLcount v]
    simp only [KahnInv]
    refine ⟨?_, nodup_concat_of visited current h2 hv, ?_, ?_, ?_, hrd, ?_, ?_, ?_⟩
    · intro q hq
      rcases List.mem_append.mp hq with h | h
      · exact h1 q (List.mem_cons_of_mem _ h)
      · rw [mem_sortByKey] at h
        exact hLmem q ((hp2 q).mp h).1
    · intro v hvm
      rcases List.mem_append.mp hvm with h | h
      · exact h3 v h
      · exact (List.mem_singleton.mp h) ▸ hcur
    · rw [hfind]
      simp [Option.toList, h4, hndid]
    · intro m hm
      rcases List.mem_append.mp hm with h | h
      · exact h5 m h
      · rw [hfind] at h
        simp only [Option.toList, List.mem_singleton] at h
        subst h
        exact hndmem
    · intro q hq hqnv
      rcases List.mem_append.mp hq with h | h
      · have hqv : q ∉ visited := fun hc => hqnv (List.mem_append_left _ hc)
        have h70 := h7 q (List.mem_cons_of_mem _ h) hqv
        have hnn := remainDeg_nonneg nodeMap edges (visited ++ [current]) q
        have heq := remainDeg_snoc nodeMap edges hacc visited current hv q
        have hpos : (0:ℤ)
            ≤ (edges.countP (fun e => e.eto = q ∧ e.efrom = current) : ℤ) :=
          Int.ofNat_nonneg _
        omega
      · rw [mem_sortByKey] at h
        obtain ⟨hqL, hqdeg, _⟩ := (hp2 q).mp h
        rw [← hrd q, hp1 q, hqdeg]
        omega
    · intro v hvids hvnv hvz
      obtain ⟨hvnvis, hvne⟩ := (hcv2 v).mp hvnv
      have heq := remainDeg_snoc nodeMap edges hacc visited current hv v
      have hrv : remainDeg nodeMap edges visited v
          = (edges.countP (fun e => e.eto = v ∧ e.efrom = current) : ℤ) := by
        omega
      by_cases hLz : (adjOf nodeMap edges current).count v = 0
      · have hc0 : edges.countP (fun e => e.eto = v ∧ e.efrom = current) = 0 := by
          rw [← hLcount v]
          exact hLz
        have hz0 : remainDeg nodeMap edges visited v = 0 := by
          rw [hrv, hc0]
          simp
        rcases List.mem_cons.mp (h8 v hvids hvnvis hz0) with h | h
        · exact absurd h hvne
        · exact List.mem_append_left _ h
      · apply List.mem_append_right
        rw [mem_sortByKey]
        apply (hp2 v).mpr
        refine ⟨?_, ?_, hvnv⟩
        · exact List.count_pos_iff.mp (Nat.pos_of_ne_zero hLz)
        · rw [h6 v, hrv, hLcount v]
    · intro e he heto
      rcases List.mem_append.mp heto with h | h
      · obtain ⟨hf, hidx⟩ := h9 e he h
        refine ⟨List.mem_append_left _ hf, ?_⟩
        rw [indexOf_append_mem _ _ _ hf, indexOf_append_mem _ _ _ h]
        exact hidx
      · have heq : e.eto = current := List.mem_singleton.mp h
        have hz : remainDeg nodeMap edges visited current = 0 :=
          h7 current (List.mem_cons_self _ _) hv
        rw [remainDeg, if_pos hcur] at hz
        have hz2 : edges.countP (fun e2 => e2.eto = current ∧ e2.efrom ∉ visited) = 0 := by
          exact_mod_cast hz
        rw [List.countP_eq_zero] at hz2
        have hfv : e.efrom ∈ visited := by
          have h3a := hz2 e he
          simp only [decide_eq_true_eq, not_and, not_not] at h3a
          exact h3a heq
        refine ⟨List.mem_append_left _ hfv, ?_⟩
        rw [heq, indexOf_append_mem _ _ _ hfv, indexOf_append_self _ _ hv]
        exact List.indexOf_lt_length.mpr hfv

/-- When the accepted edge set is acyclic the Kahn loop cannot stall:
every geometry-map key whose remaining in-degree never reaches zero would
start an infinite chain of unvisited predecessors, which the pigeonhole
principle turns into a cycle. -/
theorem kahn_complete (nodeMap : List NodeData) (edges : List EdgeData)
    (hacc : ∀ e ∈ edges, e.efrom ∈ idsOf nodeMap ∧ e.eto ∈ idsOf nodeMap)
    (hacyc : Acyclic edges) (visitedF : List String)
    (hstuck : ∀ v ∈ idsOf nodeMap, v ∉ visitedF →
      remainDeg nodeMap edges visitedF v ≠ 0) :
    ∀ v ∈ idsOf nodeMap, v ∈ visitedF := by
  by_contra hc
  push_neg at hc
  obtain ⟨u0, hu0ids, hu0nv⟩ := hc
  have hpred : ∀ u : String, ∃ w : String,
      (u ∈ idsOf nodeMap ∧ u ∉ visitedF) →
      ((w ∈ idsOf nodeMap ∧ w ∉ visitedF) ∧ hasEdge edges w u) := by
    intro u
    by_cases hu : u ∈ idsOf nodeMap ∧ u ∉ visitedF
    · have hz := hstuck u hu.1 hu.2
      rw [remainDeg, if_pos hu.1] at hz
      have hcne : edges.countP (fun e => e.eto = u ∧ e.efrom ∉ visitedF) ≠ 0 := by
        exact_mod_cast hz
      have hex : ∃ e ∈ edges, e.eto = u ∧ e.efrom ∉ visitedF := by
        by_contra hno
        push_neg at hno
        apply hcne
        rw [List.countP_eq_zero]
        intro e he
        simp only [decide_eq_true_eq, not_and, not_not]
        exact hno e he
      obtain ⟨e, he, heto, hef⟩ := hex
      exact ⟨e.efrom, fun _ => ⟨⟨(hacc e he).1, hef⟩, ⟨e, he, rfl, heto⟩⟩⟩
    · exact ⟨u, fun h => absurd h hu⟩
  choose f hf using hpred
  have hgU : ∀ n : ℕ, f^[n] u0 ∈ idsOf nodeMap ∧ f^[n] u0 ∉ visitedF := by
    intro n
    induction n with
    | zero => exact ⟨hu0ids, hu0nv⟩
    | succ k ihk =>
      rw [Function.iterate_succ_apply']
      exact (hf (f^[k] u0) ihk).1
  have hgE : ∀ n : ℕ, hasEdge edges (f^[n+1] u0) (f^[n] u0) := by
    intro n
    rw [Function.iterate_succ_apply']
    exact (hf (f^[n] u0) (hgU n)).2
  have hchain : ∀ (a d : ℕ),
      Relation.TransGen (hasEdge edges) (f^[a + d + 1] u0) (f^[a] u0) := by
    intro a d
    induction d with
    | zero => exact Relation.TransGen.single (hgE a)
    | succ k ihk =>
      have h1 : a + (k + 1) + 1 = (a + k + 1) + 1 := by omega
      rw [h1]
      exact Relation.TransGen.head (hgE (a + k + 1)) ihk
  have hmap : ∀ i : Fin ((idsOf nodeMap).length + 1),
      f^[(i : ℕ)] u0 ∈ (idsOf nodeMap).toFinset := by
    intro i
    rw [List.mem_toFinset]
    exact (hgU i).1
  have hcard : ((idsOf nodeMap).toFinset).card
      < (Finset.univ : Finset (Fin ((idsOf nodeMap).length + 1))).card := by
    rw [Finset.card_univ, Fintype.card_fin]
    exact Nat.lt_succ_of_le (List.toFinset_card_le _)
  obtain ⟨i, _, j, _, hij, hgij⟩ :=
    Finset.exists_ne_map_eq_of_card_lt_of_maps_to hcard (fun i _ => hmap i)
  have hvij : (i : ℕ) ≠ (j : ℕ) := fun h => hij (Fin.ext h)
  rcases hvij.lt_or_lt with hlt | hlt
  · have hj : (i : ℕ) + ((j : ℕ) - (i : ℕ) - 1) + 1 = (j : ℕ) := by omega
    have hch := hchain (i : ℕ) ((j : ℕ) - (i : ℕ) - 1)
    rw [hj] at hch
    rw [← hgij] at hch
    exact hacyc _ hch
  · have hj : (j : ℕ) + ((i : ℕ) - (j : ℕ) - 1) + 1 = (i : ℕ) := by omega
    have hch := hchain (j : ℕ) ((i : ℕ) - (j : ℕ) - 1)
    rw [hj] at hch
    rw [hgij] at hch
    exact hacyc _ hch

theorem topoSort_assemble (nodeMap : List NodeData) (edges : List EdgeData)
    (hnd : (idsOf nodeMap).Nodup)
    (hacc : ∀ e ∈ edges, e.efrom ∈ idsOf nodeMap ∧ e.eto ∈ idsOf nodeMap)
    (st : List NodeData × List String)
    (hfnd : st.2.Nodup)
    (hfmap : st.1.map (fun n => n.id) = st.2)
    (hfmem : ∀ nd ∈ st.1, nd ∈ nodeMap)
    (hford : ∀ e ∈ edges, e.eto ∈ st.2 →
      e.efrom ∈ st.2 ∧ st.2.indexOf e.efrom < st.2.indexOf e.eto)
    (hall : ∀ v ∈ idsOf nodeMap, v ∈ st.2) :
    (st.1 ++ nodeMap.filter (fun n => n.id ∉ st.2)).Perm nodeMap ∧
    ∀ e ∈ edges,
      ((st.1 ++ nodeMap.filter (fun n => n.id ∉ st.2)).map
        (fun n => n.id)).indexOf e.efrom
        < ((st.1 ++ nodeMap.filter (fun n => n.id ∉ st.2)).map
            (fun n => n.id)).indexOf e.eto := by
  have hfilter : nodeMap.filter (fun n => n.id ∉ st.2) = [] := by
    rw [List.filter_eq_nil_iff]
    intro n hn
    simp only [decide_eq_true_eq, not_not]
    exact hall n.id (List.mem_map_of_mem _ hn)
  rw [hfilter, List.append_nil]
  have hnd2 : (nodeMap.map (fun n => n.id)).Nodup := hnd
  have hndM : nodeMap.Nodup := List.Nodup.of_map _ hnd2
  have hnd1 : st.1.Nodup := by
    apply List.Nodup.of_map (fun n => n.id)
    rw [hfmap]
    exact hfnd
  have hinj : ∀ a ∈ nodeMap, ∀ b ∈ nodeMap, a.id = b.id → a = b := by
    intro a ha b hb hab
    exact List.inj_on_of_nodup_map hnd2 ha hb hab
  have hmemiff : ∀ nd ∈ nodeMap, nd ∈ st.1 := by
    intro nd hndm
    have hid2 : nd.id ∈ st.2 := hall nd.id (List.mem_map_of_mem _ hndm)
    rw [← hfmap] at hid2
    obtain ⟨m, hm, hmid⟩ := List.mem_map.mp hid2
    have hmeq : m = nd := hinj m (hfmem m hm) nd hndm hmid
    exact hmeq ▸ hm
  constructor
  · rw [List.perm_iff_count]
    intro nd
    by_cases hmem : nd ∈ nodeMap
    · rw [List.count_eq_one_of_mem hnd1 (hmemiff nd hmem),
        List.count_eq_one_of_mem hndM hmem]
    · rw [List.count_eq_zero.mpr hmem,
        List.count_eq_zero.mpr (fun hin => hmem (hfmem nd hin))]
  · intro e he
    rw [hfmap]
    have heto := hall e.eto (hacc e he).2
    exact (hford e he heto).2

/-- C4: for every flowchart whose accepted edge set (both endpoints are
geometry-map keys — which the flowchart parser enforces before pushing an
edge) is acyclic, topologicalSort outputs every geometry-map node exactly
once (the output is a permutation of the map's node list), and the output
order is a valid topological order: the source of every accepted edge
appears strictly before its destination. -/
theorem topologicalSort_correct (nodeMap : List NodeData) (edges : List EdgeData)
    (hnd : (idsOf nodeMap).Nodup)
    (hacc : ∀ e ∈ edges, e.efrom ∈ idsOf nodeMap ∧ e.eto ∈ idsOf nodeMap)
    (hacyc : Acyclic edges) :
    (topologicalSort nodeMap edges).Perm nodeMap ∧
    ∀ e ∈ edges,
      ((topologicalSort nodeMap edges).map (fun n => n.id)).indexOf e.efrom
        < ((topologicalSort nodeMap edges).map (fun n => n.id)).indexOf e.eto := by
  have hrd0 : ∀ v, initInDeg nodeMap edges v = remainDeg nodeMap edges [] v := by
    intro v
    rw [initInDeg, remainDeg]
    by_cases hv : v ∈ idsOf nodeMap
    · rw [if_pos hv, if_pos hv]
      have hc : edges.countP (fun e => e.eto = v)
          = edges.countP (fun e => e.eto = v ∧ e.efrom ∉ ([] : List String)) := by
        apply List.countP_congr
        intro e _
        simp
      rw [hc]
    · rw [if_neg hv, if_neg hv]
  have hinv0 : KahnInv nodeMap edges
      (sortByKey (yOf nodeMap)
        ((idsOf nodeMap).filter (fun s => initInDeg nodeMap edges s = 0)))
      (initInDeg nodeMap edges) [] [] := by
    simp only [KahnInv]
    refine ⟨?_, List.nodup_nil, ?_, rfl, ?_, ?_, ?_, ?_, ?_⟩
    · intro q hq
      rw [mem_sortByKey] at hq
      exact (List.mem_filter.mp hq).1
    · intro v hv
      cases hv
    · intro nd hndm
      cases hndm
    · intro v
      rw [hrd0 v]
    · intro q hq _
      rw [mem_sortByKey] at hq
      have hq0 := (List.mem_filter.mp hq).2
      simp only [decide_eq_true_eq] at hq0
      rw [← hrd0 q]
      exact hq0
    · intro v hvids _ hz
      rw [mem_sortByKey, List.mem_filter]
      refine ⟨hvids, ?_⟩
      simp only [decide_eq_true_eq]
      rw [hrd0 v]
      exact hz
    · intro e _ h
      exact absurd h (List.not_mem_nil _)
  have hfin := kahnLoop_spec nodeMap edges hacc _ _ _ _ hinv0
  simp only [KahnFinal] at hfin
  obtain ⟨hfnd, hfsub, hfmap, hfmem, hfstuck, hford⟩ := hfin
  have hall := kahn_complete nodeMap edges hacc hacyc _ hfstuck
  exact topoSort_assemble nodeMap edges hnd hacc _ hfnd hfmap hfmem hford hall

/-- The topological-sort correctness theorem applied to a concrete
two-node flowchart with the single edge A → B: the hypotheses (duplicate-
free ids, accepted endpoints, acyclicity) hold and both conclusions
follow. -/
theorem topologicalSort_correct_witness :
    (idsOf demoFlowNodes).Nodup ∧
    (∀ e ∈ demoFlowEdges,
      e.efrom ∈ idsOf demoFlowNodes ∧ e.eto ∈ idsOf demoFlowNodes) ∧
    Acyclic demoFlowEdges ∧
    ((topologicalSort demoFlowNodes demoFlowEdges).Perm demoFlowNodes ∧
     ∀ e ∈ demoFlowEdges,
       ((topologicalSort demoFlowNodes demoFlowEdges).map
         (fun n => n.id)).indexOf e.efrom
         < ((topologicalSort demoFlowNodes demoFlowEdges).map
             (fun n => n.id)).indexOf e.eto) := by
  have hnd : (idsOf demoFlowNodes).Nodup := by decide
  have hacc : ∀ e ∈ demoFlowEdges,
      e.efrom ∈ idsOf demoFlowNodes ∧ e.eto ∈ idsOf demoFlowNodes := by decide
  have hacyc : Acyclic demoFlowEdges := by
    have hstep : ∀ a b : String, hasEdge demoFlowEdges a b → a = "A" ∧ b = "B" := by
      rintro a b ⟨e, he, hf, ht⟩
      simp only [demoFlowEdges, List.mem_singleton] at he
      subst he
      exact ⟨hf.symm, ht.symm⟩
    have hgen : ∀ x y : String, Relation.TransGen (hasEdge demoFlowEdges) x y →
        x = "A" ∧ y = "B" := by
      intro x y h
      induction h with
      | single h1 => exact hstep _ _ h1
      | tail h1 h2 ihk =>
        have ha := hstep _ _ h2
        exact absurd (ihk.2.symm.trans ha.1) (by decide)
    intro v htg
    have hvv := hgen v v htg
    exact absurd (hvv.1.symm.trans hvv.2) (by decide)
  exact ⟨hnd, hacc, hacyc,
    topologicalSort_correct demoFlowNodes demoFlowEdges hnd hacc hacyc⟩

end MermaidVideo
